import Mathlib

/-!
Shallow embedding of the DocTalk backend (`backend/app`), covering the
branching conversation store, the branch-history walk, edit groups, the
vector store (Qdrant wrapper), length-aware rescoring, upload error
handling, the hierarchical chunk selector, the SSE stream frames of
`/chat/stream`, and the per-conversation LLM lock.  Each definition is
translated from the Python source file named in its doc comment.
-/

namespace DocTalk

/-- `ChatMessage.role` in `models/db_models.py`: either `"user"` or `"assistant"`. -/
inductive Role where
  | user
  | assistant
deriving Repr, DecidableEq

/-- A row of the `chat_messages` table (`models/db_models.py`, class `ChatMessage`).
`replyTo` is `reply_to_message_id`, `editGroupId` is `edit_group_id`,
`versionIndex` is `version_index`, `isEdited` is the 0/1 `is_edited` column,
`createdAt` models the `created_at` timestamp (monotone insertion clock). -/
structure Msg where
  id : Nat
  convId : Nat
  role : Role
  content : String
  replyTo : Option Nat
  editGroupId : Option Nat
  versionIndex : Nat
  isArchived : Bool
  isEdited : Nat
  sourcesJson : Option String
  promptSnapshot : Option String
  createdAt : Nat
deriving Repr, DecidableEq

/-- The persistent message store: rows in insertion order plus the
autoincrement counter (SQLite primary keys start at 1). -/
structure DB where
  msgs : List Msg
  nextId : Nat
deriving Repr, DecidableEq

/-- The empty database; autoincrement ids start at 1. -/
def DB.empty : DB := { msgs := [], nextId := 1 }

/-- `db.get(ChatMessage, current_id)`: primary-key lookup. -/
def findMsg (msgs : List Msg) (i : Nat) : Option Msg :=
  msgs.find? (fun m => m.id = i)

/-- One auxiliary counting lemma for the termination of the branch walk:
extending the visited set strictly shrinks the pool of unvisited ids,
provided the newly visited id was in the pool. -/
theorem filter_not_mem_cons_length_lt (l : List Nat) (a : Nat) (v : List Nat)
    (hal : a ∈ l) (hav : a ∉ v) :
    (l.filter (fun i => decide (i ∉ a :: v))).length
      < (l.filter (fun i => decide (i ∉ v))).length := by
  have hsplit : l.filter (fun i => decide (i ∉ a :: v))
      = (l.filter (fun i => decide (i ∉ v))).filter (fun i => decide (i ≠ a)) := by
    rw [List.filter_filter]
    apply List.filter_congr
    intro x _
    by_cases hxa : x = a
    · subst hxa; simp
    · by_cases hxv : x ∈ v <;> simp [hxa, hxv]
  rw [hsplit]
  rw [List.length_filter_lt_length_iff_exists]
  refine ⟨a, ?_, by simp⟩
  exact List.mem_filter.mpr ⟨hal, by simpa using hav⟩

/-- The `while` loop of `_build_branch_chat_history` (`routes/chat.py`, lines 62-78):
follow `reply_to_message_id` backwards from `current`, guarded by the `visited`
set; stop when the id is absent, already visited, in another conversation, or
once `maxMsgs` messages have been collected (the cap is checked after the
append).  Terminates because every step visits a fresh id drawn from the finite
message table. -/
def branchWalk (msgs : List Msg) (conv : Nat) (current : Option Nat)
    (visited : List Nat) (acc : List Msg) (maxMsgs : Nat) : List Msg :=
  match current with
  | none => acc
  | some cid =>
    if hv : cid ∈ visited then acc
    else
      match hf : findMsg msgs cid with
      | none => acc
      | some m =>
        if m.convId ≠ conv then acc
        else
          let acc' := acc ++ [m]
          if acc'.length ≥ maxMsgs then acc'
          else branchWalk msgs conv m.replyTo (cid :: visited) acc' maxMsgs
termination_by ((msgs.map Msg.id).filter (fun i => decide (i ∉ visited))).length
decreasing_by
  apply filter_not_mem_cons_length_lt
  · have := List.find?_some hf
    have hid : m.id = cid := by simpa using this
    have hm : m ∈ msgs := List.mem_of_find?_eq_some hf
    exact hid ▸ List.mem_map_of_mem Msg.id hm
  · exact hv

/-- `_build_branch_chat_history` (`routes/chat.py`, lines 52-81): run the walk
from the tail, reverse to chronological order, and project to
`{"role": …, "content": …}` pairs. -/
def buildBranchChatHistory (msgs : List Msg) (conv : Nat)
    (tailAssistantId : Option Nat) (maxMsgs : Nat) : List (Role × String) :=
  match tailAssistantId with
  | none => []
  | some t =>
    ((branchWalk msgs conv (some t) [] [] maxMsgs).reverse).map
      (fun m => (m.role, m.content))

/-- A successful primary-key lookup returns a stored row bearing that id. -/
theorem findMsg_mem_and_id {msgs : List Msg} {i : Nat} {m : Msg}
    (h : findMsg msgs i = some m) : m ∈ msgs ∧ m.id = i := by
  refine ⟨List.mem_of_find?_eq_some h, ?_⟩
  have := List.find?_some h
  simpa using this

/-- Unfolding: a `None` current id ends the walk. -/
theorem branchWalk_none (msgs : List Msg) (conv : Nat) (visited : List Nat)
    (acc : List Msg) (maxMsgs : Nat) :
    branchWalk msgs conv none visited acc maxMsgs = acc := by
  rw [branchWalk]

/-- Unfolding: an already-visited id ends the walk (the cycle guard). -/
theorem branchWalk_visited (msgs : List Msg) (conv cid : Nat) (visited : List Nat)
    (acc : List Msg) (maxMsgs : Nat) (hv : cid ∈ visited) :
    branchWalk msgs conv (some cid) visited acc maxMsgs = acc := by
  rw [branchWalk, dif_pos hv]

/-- Unfolding: a dangling id (no such row) ends the walk. -/
theorem branchWalk_notFound (msgs : List Msg) (conv cid : Nat) (visited : List Nat)
    (acc : List Msg) (maxMsgs : Nat) (hv : cid ∉ visited)
    (hf : findMsg msgs cid = none) :
    branchWalk msgs conv (some cid) visited acc maxMsgs = acc := by
  rw [branchWalk, dif_neg hv]
  split
  · rfl
  · next m heq => rw [hf] at heq; exact Option.noConfusion heq

/-- Unfolding: a row from another conversation ends the walk. -/
theorem branchWalk_wrongConv (msgs : List Msg) (conv cid : Nat) (visited : List Nat)
    (acc : List Msg) (maxMsgs : Nat) (hv : cid ∉ visited) {m : Msg}
    (hf : findMsg msgs cid = some m) (hc : m.convId ≠ conv) :
    branchWalk msgs conv (some cid) visited acc maxMsgs = acc := by
  rw [branchWalk, dif_neg hv]
  split
  · next heq => rw [hf] at heq
  · next m' heq =>
    rw [hf] at heq
    cases heq
    rw [if_pos hc]

/-- Unfolding: the found row is appended; the walk continues unless the cap
(checked after the append) has been reached. -/
theorem branchWalk_step (msgs : List Msg) (conv cid : Nat) (visited : List Nat)
    (acc : List Msg) (maxMsgs : Nat) (hv : cid ∉ visited) {m : Msg}
    (hf : findMsg msgs cid = some m) (hc : m.convId = conv) :
    branchWalk msgs conv (some cid) visited acc maxMsgs =
      (if (acc ++ [m]).length ≥ maxMsgs then acc ++ [m]
       else branchWalk msgs conv m.replyTo (cid :: visited) (acc ++ [m]) maxMsgs) := by
  rw [branchWalk, dif_neg hv]
  split
  · next heq => rw [hf] at heq; exact Option.noConfusion heq
  · next m' heq =>
    rw [hf] at heq
    cases heq
    rw [if_neg (by simp [hc])]

/-- The walk collects at most `max (acc.length + 1) maxMsgs` messages: the cap
is tested only after appending, so one message can slip past a cap of zero. -/
theorem branchWalk_length_le (msgs : List Msg) (conv : Nat) :
    ∀ cur visited acc maxMsgs,
    (branchWalk msgs conv cur visited acc maxMsgs).length ≤ max (acc.length + 1) maxMsgs := by
  intro cur visited acc maxMsgs
  induction cur, visited, acc, maxMsgs using branchWalk.induct msgs conv with
  | case1 visited acc maxMsgs =>
    rw [branchWalk_none]; omega
  | case2 visited acc maxMsgs cid hv =>
    rw [branchWalk_visited msgs conv cid visited acc maxMsgs hv]; omega
  | case3 visited acc maxMsgs cid hv hf =>
    rw [branchWalk_notFound msgs conv cid visited acc maxMsgs hv hf]; omega
  | case4 visited acc maxMsgs cid hv m hf hconv =>
    rw [branchWalk_wrongConv msgs conv cid visited acc maxMsgs hv hf hconv]; omega
  | case5 visited acc maxMsgs cid hv m hf hconv acc' hcap =>
    have hc : m.convId = conv := by
      by_contra hne; exact hconv hne
    rw [branchWalk_step msgs conv cid visited acc maxMsgs hv hf hc, if_pos hcap]
    simp only [List.length_append, List.length_cons, List.length_nil]
    omega
  | case6 visited acc maxMsgs cid hv m hf hconv acc' hcap ih =>
    have hc : m.convId = conv := by
      by_contra hne; exact hconv hne
    have hcap' : ¬ (acc ++ [m]).length ≥ maxMsgs := hcap
    have ih' : (branchWalk msgs conv m.replyTo (cid :: visited) (acc ++ [m]) maxMsgs).length
        ≤ max ((acc ++ [m]).length + 1) maxMsgs := ih
    rw [branchWalk_step msgs conv cid visited acc maxMsgs hv hf hc, if_neg hcap']
    refine le_trans ih' ?_
    simp only [List.length_append, List.length_cons, List.length_nil] at *
    omega

/-- Extending the accumulator with the row found for the current id preserves
the walk invariant: membership, the ancestor chain, strictly decreasing ids,
the id bound, and the link to the next current id. -/
theorem walkInv_extend {msgs : List Msg} {B cid : Nat} {acc : List Msg} {m : Msg}
    (hre : ∀ m ∈ msgs, ∀ r, m.replyTo = some r → r < m.id)
    (hf : findMsg msgs cid = some m)
    (h1 : ∀ x ∈ acc, x ∈ msgs)
    (h2 : List.Chain' (fun a b => a.replyTo = some b.id) acc)
    (h3 : List.Pairwise (fun a b => b.id < a.id) acc)
    (h4 : (∀ x ∈ acc, cid < x.id) ∧ cid ≤ B)
    (h5 : ∀ x ∈ acc, x.id ≤ B)
    (h6 : ∀ lst, acc.getLast? = some lst → lst.replyTo = some cid) :
    (∀ x ∈ acc ++ [m], x ∈ msgs) ∧
    List.Chain' (fun a b => a.replyTo = some b.id) (acc ++ [m]) ∧
    List.Pairwise (fun a b => b.id < a.id) (acc ++ [m]) ∧
    (∀ x ∈ acc ++ [m], x.id ≤ B) ∧
    (∀ c, m.replyTo = some c →
      (∀ x ∈ acc ++ [m], c < x.id) ∧ c ≤ B) ∧
    (∀ c, m.replyTo = some c →
      ∀ lst, (acc ++ [m]).getLast? = some lst → lst.replyTo = some c) := by
  obtain ⟨hm, hid⟩ := findMsg_mem_and_id hf
  refine ⟨?_, ?_, ?_, ?_, ?_, ?_⟩
  · intro x hx
    rcases List.mem_append.mp hx with hx | hx
    · exact h1 x hx
    · simp only [List.mem_singleton] at hx; subst hx; exact hm
  · rw [List.chain'_append]
    refine ⟨h2, List.chain'_singleton m, ?_⟩
    intro x hx y hy
    simp only [List.head?_cons, Option.mem_def, Option.some.injEq] at hy
    subst hy
    rw [hid]
    exact h6 x (Option.mem_def.mp hx)
  · rw [List.pairwise_append]
    refine ⟨h3, List.pairwise_singleton _ m, ?_⟩
    intro a ha b hb
    simp only [List.mem_singleton] at hb; subst hb
    rw [hid]
    exact h4.1 a ha
  · intro x hx
    rcases List.mem_append.mp hx with hx | hx
    · exact h5 x hx
    · simp only [List.mem_singleton] at hx; subst hx
      rw [hid]; exact h4.2
  · intro c hrc
    have hcm : c < m.id := hre m hm c hrc
    constructor
    · intro x hx
      rcases List.mem_append.mp hx with hx | hx
      · exact lt_trans (hid ▸ hcm) (h4.1 x hx)
      · simp only [List.mem_singleton] at hx; subst hx; exact hcm
    · exact le_trans (le_of_lt (hid ▸ hcm)) h4.2
  · intro c hrc lst hlst
    rw [List.getLast?_concat] at hlst
    cases hlst
    exact hrc

/-- Master invariant of the backward walk from `_build_branch_chat_history`:
if every stored reply pointer refers to a strictly older row, the collected
messages are stored rows forming the ancestor chain, with strictly decreasing
ids, all bounded by `B` whenever the starting id is. -/
theorem branchWalk_invariant (msgs : List Msg) (conv : Nat) (B : Nat)
    (hre : ∀ m ∈ msgs, ∀ r, m.replyTo = some r → r < m.id) :
    ∀ cur visited acc maxMsgs,
    (∀ x ∈ acc, x ∈ msgs) →
    List.Chain' (fun a b => a.replyTo = some b.id) acc →
    List.Pairwise (fun a b => b.id < a.id) acc →
    (∀ c, cur = some c → (∀ x ∈ acc, c < x.id) ∧ c ≤ B) →
    (∀ x ∈ acc, x.id ≤ B) →
    (∀ c, cur = some c → ∀ lst, acc.getLast? = some lst → lst.replyTo = some c) →
    (∀ x ∈ branchWalk msgs conv cur visited acc maxMsgs, x ∈ msgs) ∧
    List.Chain' (fun a b => a.replyTo = some b.id)
      (branchWalk msgs conv cur visited acc maxMsgs) ∧
    List.Pairwise (fun a b => b.id < a.id)
      (branchWalk msgs conv cur visited acc maxMsgs) ∧
    (∀ x ∈ branchWalk msgs conv cur visited acc maxMsgs, x.id ≤ B) := by
  intro cur visited acc maxMsgs
  induction cur, visited, acc, maxMsgs using branchWalk.induct msgs conv with
  | case1 visited acc maxMsgs =>
    intro h1 h2 h3 _ h5 _
    rw [branchWalk_none]
    exact ⟨h1, h2, h3, h5⟩
  | case2 visited acc maxMsgs cid hv =>
    intro h1 h2 h3 _ h5 _
    rw [branchWalk_visited msgs conv cid visited acc maxMsgs hv]
    exact ⟨h1, h2, h3, h5⟩
  | case3 visited acc maxMsgs cid hv hf =>
    intro h1 h2 h3 _ h5 _
    rw [branchWalk_notFound msgs conv cid visited acc maxMsgs hv hf]
    exact ⟨h1, h2, h3, h5⟩
  | case4 visited acc maxMsgs cid hv m hf hconv =>
    intro h1 h2 h3 _ h5 _
    rw [branchWalk_wrongConv msgs conv cid visited acc maxMsgs hv hf hconv]
    exact ⟨h1, h2, h3, h5⟩
  | case5 visited acc maxMsgs cid hv m hf hconv acc' hcap =>
    intro h1 h2 h3 h4 h5 h6
    have hc : m.convId = conv := by by_contra hne; exact hconv hne
    have hcap' : (acc ++ [m]).length ≥ maxMsgs := hcap
    rw [branchWalk_step msgs conv cid visited acc maxMsgs hv hf hc, if_pos hcap']
    obtain ⟨e1, e2, e3, e4, _, _⟩ :=
      walkInv_extend hre hf h1 h2 h3 (h4 cid rfl) h5 (h6 cid rfl)
    exact ⟨e1, e2, e3, e4⟩
  | case6 visited acc maxMsgs cid hv m hf hconv acc' hcap ih =>
    intro h1 h2 h3 h4 h5 h6
    have hc : m.convId = conv := by by_contra hne; exact hconv hne
    have hcap' : ¬ (acc ++ [m]).length ≥ maxMsgs := hcap
    rw [branchWalk_step msgs conv cid visited acc maxMsgs hv hf hc, if_neg hcap']
    obtain ⟨e1, e2, e3, e4, e5, e6⟩ :=
      walkInv_extend hre hf h1 h2 h3 (h4 cid rfl) h5 (h6 cid rfl)
    exact ih e1 e2 e3 e5 e4 e6

/-- Error kinds surfaced by the chat endpoints (`routes/chat.py`):
`invalidParent` for "Invalid parent_message_id" (HTTP 400), `parentNotAssistant`
for "parent_message_id must refer to an assistant message" (HTTP 400),
`parentRequired` for "parent_message_id is required for follow-up messages to
preserve branching" (HTTP 400), `internalError` for an unhandled exception
(HTTP 500, e.g. the `AttributeError` reachable in the stream edit path when the
original message is missing). -/
inductive ChatError where
  | invalidParent
  | parentNotAssistant
  | parentRequired
  | internalError
deriving Repr, DecidableEq

/-- The chat request body (`models/schemas.py`, `ChatRequest`), restricted to
the fields the branching logic reads. -/
structure ChatRequest where
  message : String
  regenerate : Bool
  editGroupId : Option Nat
  isEdit : Bool
  parentMessageId : Option Nat
deriving Repr, DecidableEq

/-- `chat.py` lines 146-151 / 472-477: does the conversation already contain
any assistant message? -/
def hasAnyAssistant (db : DB) (conv : Nat) : Bool :=
  db.msgs.any (fun m => decide (m.convId = conv ∧ m.role = Role.assistant))

/-- `_get_latest_assistant_id` (`chat.py` lines 19-29): the assistant row of the
conversation with the greatest id (`ORDER BY id DESC LIMIT 1`); with ids
assigned in insertion order this is the last such row. -/
def latestAssistantId (db : DB) (conv : Nat) : Option Nat :=
  ((db.msgs.filter (fun m => decide (m.convId = conv ∧ m.role = Role.assistant))).getLast?).map Msg.id

/-- `ChatMessage` row of the latest user message (`chat.py` lines 457-462,
`ORDER BY id DESC LIMIT 1` over role=user). -/
def latestUserMsg (db : DB) (conv : Nat) : Option Msg :=
  (db.msgs.filter (fun m => decide (m.convId = conv ∧ m.role = Role.user))).getLast?

/-- `_validate_parent_message_id` (`chat.py` lines 32-49): the explicit parent
must exist, belong to the conversation, and be an assistant message. -/
def validateParentMessageId (db : DB) (conv pid : Nat) : Except ChatError Nat :=
  match db.msgs.find? (fun m => decide (m.id = pid ∧ m.convId = conv)) with
  | none => .error .invalidParent
  | some p => if p.role ≠ Role.assistant then .error .parentNotAssistant else .ok p.id

/-- The user messages of conversation `conv` carrying `edit_group_id = g`
(the count query of `chat.py` lines 552-561 without the `.count()`). -/
def userGroup (db : DB) (conv g : Nat) : List Msg :=
  db.msgs.filter (fun m => decide (m.convId = conv ∧ m.role = Role.user ∧ m.editGroupId = some g))

/-- The original-message lookup of an edit (`chat.py` lines 537-545): the row
whose id is the requested `edit_group_id`, in this conversation, of role user. -/
def findOriginal (db : DB) (conv egidReq : Nat) : Option Msg :=
  db.msgs.find? (fun m => decide (m.id = egidReq ∧ m.convId = conv ∧ m.role = Role.user))

/-- The `ChatMessage(...)` constructor call for a user row
(`chat.py` lines 571-579): archived flag false, no sources or snapshot. -/
def mkUserRow (id conv : Nat) (content : String) (parent egid : Option Nat)
    (vi isEd : Nat) : Msg :=
  { id := id, convId := conv, role := .user, content := content,
    replyTo := parent, editGroupId := egid, versionIndex := vi,
    isArchived := false, isEdited := isEd, sourcesJson := none,
    promptSnapshot := none, createdAt := id }

/-- The `ChatMessage(...)` constructor call for an assistant row
(`chat.py` lines 313-323 / 720-730): `version_index=1`, `is_archived=False`,
no edit group. -/
def mkAssistantRow (id conv : Nat) (resp : String) (replyTo : Option Nat)
    (sources prompt : Option String) : Msg :=
  { id := id, convId := conv, role := .assistant, content := resp,
    replyTo := replyTo, editGroupId := none, versionIndex := 1,
    isArchived := false, isEdited := 0, sourcesJson := sources,
    promptSnapshot := prompt, createdAt := id }

/-- Persist a fresh (non-edit) user turn followed by its assistant reply
(`chat.py`: user insert at lines 571-589 with the back-fill
`edit_group_id = user_message.id`, assistant insert at lines 720-735; the
non-stream endpoint does the same at lines 297-327). -/
def sendNewTurn (db : DB) (conv : Nat) (content : String) (parent : Option Nat)
    (resp : String) (sources : Option String) : DB :=
  { msgs := db.msgs ++
      [mkUserRow db.nextId conv content parent (some db.nextId) 1 0,
       mkAssistantRow (db.nextId + 1) conv resp (some db.nextId) sources (some content)],
    nextId := db.nextId + 2 }

/-- Persist a new edit version of the turn anchored by `o` followed by its
assistant reply (`chat.py` lines 546-589 and 720-735): the group id is the
original's `edit_group_id` (falling back to its own id — Python
`original_message.edit_group_id or original_message.id`; ids are ≥ 1 so the
falsy-zero case of `or` cannot fire), the version index is the count of
existing user members plus one, and the parent is the original's parent. -/
def appendEditVersions (db : DB) (conv : Nat) (content : String) (o : Msg)
    (resp : String) (sources : Option String) : DB :=
  let g := o.editGroupId.getD o.id
  let vi := (userGroup db conv g).length + 1
  { msgs := db.msgs ++
      [mkUserRow db.nextId conv content o.replyTo (some g) vi (if vi > 1 then 1 else 0),
       mkAssistantRow (db.nextId + 1) conv resp (some db.nextId) sources (some content)],
    nextId := db.nextId + 2 }

/-- The stream edit path (`chat_stream`, lines 534-565): look up the original;
if it is missing the subsequent `original_message.reply_to_message_id` raises
`AttributeError` (HTTP 500) before anything is persisted. -/
def sendEditTurn (db : DB) (conv : Nat) (content : String) (egidReq : Nat)
    (resp : String) (sources : Option String) : Option DB :=
  match findOriginal db conv egidReq with
  | none => none
  | some o => some (appendEditVersions db conv content o resp sources)

/-- Insert a bare assistant row (`version_index=1`, `is_archived=False`,
no edit group): the regenerate path, the lock-timeout error reply
(`chat.py` lines 602-615), and the error reply persisted after a failed
generation (lines 704-717). -/
def insertAssistant (db : DB) (conv : Nat) (content : String) (replyTo : Option Nat)
    (sources : Option String) (prompt : Option String) : DB :=
  { msgs := db.msgs ++ [mkAssistantRow db.nextId conv content replyTo sources prompt],
    nextId := db.nextId + 1 }

/-- Parent resolution of the non-stream `/chat` endpoint (`chat.py` lines
144-161): an explicit parent is validated; otherwise a follow-up on a
conversation that already has an assistant message and is neither an edit nor
a regenerate is rejected with `ParentRequired`; otherwise the latest assistant
is used. -/
def chatResolveParent (db : DB) (conv : Nat) (req : ChatRequest) :
    Except ChatError (Option Nat) :=
  match req.parentMessageId with
  | some pid => (validateParentMessageId db conv pid).map some
  | none =>
    if hasAnyAssistant db conv ∧ ¬req.isEdit ∧ ¬req.regenerate then
      .error .parentRequired
    else
      .ok (latestAssistantId db conv)

/-- Parent resolution of `/chat/stream` (`chat.py` lines 453-487): regenerate
reuses the latest user's parent (overridden by a validated explicit parent);
otherwise like the non-stream endpoint, except the regenerate test is no
longer part of the guard (that branch was taken above). -/
def chatStreamResolveParent (db : DB) (conv : Nat) (req : ChatRequest) :
    Except ChatError (Option Nat) :=
  if req.regenerate then
    let fromLastUser := (latestUserMsg db conv).bind Msg.replyTo
    match req.parentMessageId with
    | some pid => (validateParentMessageId db conv pid).map some
    | none => .ok fromLastUser
  else
    match req.parentMessageId with
    | some pid => (validateParentMessageId db conv pid).map some
    | none =>
      if hasAnyAssistant db conv ∧ ¬req.isEdit then
        .error .parentRequired
      else
        .ok (latestAssistantId db conv)

/-- The persistence effect of one non-stream `/chat` request (`chat.py` lines
144-327): resolve the parent (HTTP 400 aborts before any insert), then either
append an edit version (original found), or fall back to a fresh turn
(including the silent `edit_group_id = None; version_index = 1` degradation
when the original is missing, lines 174-176). -/
def chatStep (db : DB) (conv : Nat) (req : ChatRequest) (resp : String)
    (sources : Option String) : Option ChatError × DB :=
  match chatResolveParent db conv req with
  | .error e => (some e, db)
  | .ok parentResolved =>
    match (if req.isEdit then req.editGroupId else none) with
    | some egr =>
      match findOriginal db conv egr with
      | none => (none, sendNewTurn db conv req.message parentResolved resp sources)
      | some o => (none, appendEditVersions db conv req.message o resp sources)
    | none => (none, sendNewTurn db conv req.message parentResolved resp sources)

/-- The persistence effect of one `/chat/stream` request that runs to the end
of its stream (`chat.py` lines 378-741): resolution errors abort with nothing
persisted; a regenerate inserts only the assistant reply (parented to the
latest user message); an edit appends a new version (or raises HTTP 500 when
the original is missing, persisting nothing); a fresh turn appends user and
assistant rows. -/
def chatStreamStep (db : DB) (conv : Nat) (req : ChatRequest) (resp : String)
    (sources : Option String) : Option ChatError × DB :=
  match chatStreamResolveParent db conv req with
  | .error e => (some e, db)
  | .ok parentResolved =>
    if req.regenerate then
      (none, insertAssistant db conv resp ((latestUserMsg db conv).map Msg.id)
        sources (some req.message))
    else
      match (if req.isEdit then req.editGroupId else none) with
      | some egr =>
        match sendEditTurn db conv req.message egr resp sources with
        | none => (some .internalError, db)
        | some db' => (none, db')
      | none => (none, sendNewTurn db conv req.message parentResolved resp sources)

/-- States reachable through the chat endpoints, starting from the empty
table: fresh turns, edit versions (stream path), and bare assistant inserts
(regenerate and the error/lock-timeout replies). -/
inductive Reach : DB → Prop where
  | init : Reach DB.empty
  | newTurn {db : DB} (conv : Nat) (content : String) (parent : Option Nat)
      (resp : String) (sources : Option String) :
      Reach db → Reach (sendNewTurn db conv content parent resp sources)
  | editTurn {db db' : DB} (conv : Nat) (content : String) (egidReq : Nat)
      (resp : String) (sources : Option String) :
      Reach db → sendEditTurn db conv content egidReq resp sources = some db' →
      Reach db'
  | assistantOnly {db : DB} (conv : Nat) (content : String) (replyTo : Option Nat)
      (sources : Option String) (prompt : Option String) :
      Reach db → Reach (insertAssistant db conv content replyTo sources prompt)

/-- Structural well-formedness of the message table: the autoincrement counter
is positive, ids are positive, below the counter, strictly increasing in
insertion order, and every persisted user message has a (back-filled)
`edit_group_id`. -/
def wfDB (db : DB) : Prop :=
  1 ≤ db.nextId ∧
  (∀ m ∈ db.msgs, 1 ≤ m.id ∧ m.id < db.nextId) ∧
  List.Pairwise (fun a b => a.id < b.id) db.msgs ∧
  (∀ m ∈ db.msgs, m.role = Role.user → m.editGroupId.isSome)

/-- The edit-group invariant: every nonempty group shares one parent, its
first (original) member's id is the group id, and the version indices are
exactly `1, …, k` in insertion order. -/
def editGroupInv (db : DB) : Prop :=
  ∀ conv g, userGroup db conv g ≠ [] →
    (∃ p, ∀ m ∈ userGroup db conv g, m.replyTo = p) ∧
    (∀ m0, (userGroup db conv g).head? = some m0 → m0.id = g) ∧
    (userGroup db conv g).map Msg.versionIndex
      = List.range' 1 (userGroup db conv g).length

/-- Unpacking membership in a user edit group. -/
theorem mem_userGroup {db : DB} {conv g : Nat} {m : Msg}
    (h : m ∈ userGroup db conv g) :
    m ∈ db.msgs ∧ m.convId = conv ∧ m.role = Role.user ∧ m.editGroupId = some g := by
  obtain ⟨hm, hp⟩ := List.mem_filter.mp h
  exact ⟨hm, of_decide_eq_true hp⟩

/-- A nonempty edit group's id is the id of a stored row, hence below the
autoincrement counter. -/
theorem group_id_lt_nextId {db : DB} {conv g : Nat}
    (hwf : wfDB db) (hinv : editGroupInv db)
    (hne : userGroup db conv g ≠ []) : g < db.nextId := by
  obtain ⟨m0, hm0⟩ : ∃ m0, (userGroup db conv g).head? = some m0 :=
    ⟨(userGroup db conv g).head hne, List.head?_eq_head hne⟩
  have hid : m0.id = g := (hinv conv g hne).2.1 m0 hm0
  have hmem : m0 ∈ userGroup db conv g := List.mem_of_mem_head? (Option.mem_def.mpr hm0)
  have := hwf.2.1 m0 (mem_userGroup hmem).1
  omega

/-- How a group changes when two rows are appended: the filter distributes. -/
theorem userGroup_append (msgs l : List Msg) (n : Nat) (conv g : Nat) :
    userGroup { msgs := msgs ++ l, nextId := n } conv g
      = userGroup { msgs := msgs, nextId := n } conv g
        ++ l.filter (fun m => decide (m.convId = conv ∧ m.role = Role.user ∧ m.editGroupId = some g)) := by
  simp [userGroup, List.filter_append]

/-- `userGroup` only reads the row list, not the counter. -/
theorem userGroup_mk (msgs : List Msg) (n n' : Nat) (conv g : Nat) :
    userGroup { msgs := msgs, nextId := n } conv g
      = userGroup { msgs := msgs, nextId := n' } conv g := rfl

/-- Appending a user/assistant pair with fresh consecutive ids preserves
structural well-formedness. -/
theorem wfDB_append2 (db : DB) (m1 m2 : Msg)
    (h1 : m1.id = db.nextId) (h2 : m2.id = db.nextId + 1)
    (hu1 : m1.role = Role.user → m1.editGroupId.isSome)
    (hu2 : m2.role = Role.user → m2.editGroupId.isSome)
    (hwf : wfDB db) : wfDB { msgs := db.msgs ++ [m1, m2], nextId := db.nextId + 2 } := by
  obtain ⟨hpos, hbound, hpair, huser⟩ := hwf
  refine ⟨by dsimp only; omega, ?_, ?_, ?_⟩ <;> dsimp only
  · intro m hm
    rcases List.mem_append.mp hm with hm | hm
    · have := hbound m hm; omega
    · rcases hm with _ | ⟨_, hm⟩
      · omega
      · rcases hm with _ | ⟨_, hm⟩
        · omega
        · cases hm
  · rw [List.pairwise_append]
    refine ⟨hpair, ?_, ?_⟩
    · refine List.pairwise_cons.mpr ⟨?_, List.pairwise_singleton _ _⟩
      intro b hb
      rcases hb with _ | ⟨_, hb⟩
      · omega
      · cases hb
    · intro a ha b hb
      have hlt := (hbound a ha).2
      rcases hb with _ | ⟨_, hb⟩
      · omega
      · rcases hb with _ | ⟨_, hb⟩
        · omega
        · cases hb
  · intro m hm
    rcases List.mem_append.mp hm with hm | hm
    · exact huser m hm
    · rcases hm with _ | ⟨_, hm⟩
      · exact hu1
      · rcases hm with _ | ⟨_, hm⟩
        · exact hu2
        · cases hm

/-- Appending one assistant row with a fresh id preserves well-formedness. -/
theorem wfDB_append1 (db : DB) (m1 : Msg)
    (h1 : m1.id = db.nextId) (hu1 : m1.role = Role.user → m1.editGroupId.isSome)
    (hwf : wfDB db) : wfDB { msgs := db.msgs ++ [m1], nextId := db.nextId + 1 } := by
  obtain ⟨hpos, hbound, hpair, huser⟩ := hwf
  refine ⟨by dsimp only; omega, ?_, ?_, ?_⟩ <;> dsimp only
  · intro m hm
    rcases List.mem_append.mp hm with hm | hm
    · have := hbound m hm; omega
    · rcases hm with _ | ⟨_, hm⟩
      · omega
      · cases hm
  · rw [List.pairwise_append]
    refine ⟨hpair, List.pairwise_singleton _ _, ?_⟩
    intro a ha b hb
    have hlt := (hbound a ha).2
    rcases hb with _ | ⟨_, hb⟩
    · omega
    · cases hb
  · intro m hm
    rcases List.mem_append.mp hm with hm | hm
    · exact huser m hm
    · rcases hm with _ | ⟨_, hm⟩
      · exact hu1
      · cases hm

/-- A fresh (non-edit) turn preserves well-formedness. -/
theorem wfDB_sendNewTurn (db : DB) (conv : Nat) (content : String)
    (parent : Option Nat) (resp : String) (sources : Option String)
    (hwf : wfDB db) : wfDB (sendNewTurn db conv content parent resp sources) :=
  wfDB_append2 db _ _ rfl rfl (fun _ => rfl) (by intro h; cases h) hwf

/-- An edit version pair preserves well-formedness. -/
theorem wfDB_appendEdit (db : DB) (conv : Nat) (content : String) (o : Msg)
    (resp : String) (sources : Option String)
    (hwf : wfDB db) : wfDB (appendEditVersions db conv content o resp sources) :=
  wfDB_append2 db _ _ rfl rfl (fun _ => rfl) (by intro h; cases h) hwf

/-- A bare assistant insert preserves well-formedness. -/
theorem wfDB_insertAssistant (db : DB) (conv : Nat) (content : String)
    (replyTo : Option Nat) (sources : Option String) (prompt : Option String)
    (hwf : wfDB db) : wfDB (insertAssistant db conv content replyTo sources prompt) :=
  wfDB_append1 db _ rfl (by intro h; cases h) hwf

/-- An assistant row never satisfies the user-edit-group filter. -/
theorem groupPred_assistantRow (conv' g' id conv : Nat) (resp : String)
    (replyTo : Option Nat) (sources prompt : Option String) :
    (decide ((mkAssistantRow id conv resp replyTo sources prompt).convId = conv' ∧
      (mkAssistantRow id conv resp replyTo sources prompt).role = Role.user ∧
      (mkAssistantRow id conv resp replyTo sources prompt).editGroupId = some g')) = false := by
  simp [mkAssistantRow]

/-- A user row with group id `g` satisfies the filter for `(conv', g')` exactly
when the conversation and group match. -/
theorem groupPred_userRow (conv' g' id conv : Nat) (content : String)
    (parent : Option Nat) (g : Nat) (vi isEd : Nat) :
    (decide ((mkUserRow id conv content parent (some g) vi isEd).convId = conv' ∧
      (mkUserRow id conv content parent (some g) vi isEd).role = Role.user ∧
      (mkUserRow id conv content parent (some g) vi isEd).editGroupId = some g')) =
      decide (conv' = conv ∧ g' = g) := by
  apply Bool.decide_congr
  simp [mkUserRow]
  constructor
  · rintro ⟨h1, h2⟩; exact ⟨h1.symm, h2.symm⟩
  · rintro ⟨h1, h2⟩; exact ⟨h1.symm, h2.symm⟩

/-- The edit groups after a fresh turn: the new user row opens the singleton
group keyed by its own id; every other group is untouched. -/
theorem userGroup_sendNewTurn (db : DB) (conv : Nat) (content : String)
    (parent : Option Nat) (resp : String) (sources : Option String)
    (conv' g' : Nat) :
    userGroup (sendNewTurn db conv content parent resp sources) conv' g' =
      userGroup db conv' g' ++
        (if conv' = conv ∧ g' = db.nextId
         then [mkUserRow db.nextId conv content parent (some db.nextId) 1 0]
         else []) := by
  show List.filter _ (db.msgs ++ [_, _]) = _
  rw [List.filter_append]
  congr 1
  rw [List.filter_cons, List.filter_cons, List.filter_nil]
  rw [groupPred_userRow conv' g' db.nextId conv content parent db.nextId 1 0,
    groupPred_assistantRow conv' g' (db.nextId + 1) conv resp (some db.nextId) sources (some content)]
  by_cases h : conv' = conv ∧ g' = db.nextId
  · rw [if_pos (decide_eq_true h), if_pos h]
    simp
  · rw [if_neg ?_, if_neg h]
    · simp
    · simpa using h

/-- The edit groups after an edit version: the new user row joins the
original's group; every other group is untouched. -/
theorem userGroup_appendEdit (db : DB) (conv : Nat) (content : String) (o : Msg)
    (resp : String) (sources : Option String) (conv' g' : Nat) :
    userGroup (appendEditVersions db conv content o resp sources) conv' g' =
      userGroup db conv' g' ++
        (if conv' = conv ∧ g' = o.editGroupId.getD o.id
         then [mkUserRow db.nextId conv content o.replyTo (some (o.editGroupId.getD o.id))
                ((userGroup db conv (o.editGroupId.getD o.id)).length + 1)
                (if (userGroup db conv (o.editGroupId.getD o.id)).length + 1 > 1 then 1 else 0)]
         else []) := by
  show List.filter _ (db.msgs ++ [_, _]) = _
  rw [List.filter_append]
  congr 1
  rw [List.filter_cons, List.filter_cons, List.filter_nil]
  rw [groupPred_userRow conv' g' db.nextId conv content o.replyTo (o.editGroupId.getD o.id) _ _,
    groupPred_assistantRow conv' g' (db.nextId + 1) conv resp (some db.nextId) sources (some content)]
  by_cases h : conv' = conv ∧ g' = o.editGroupId.getD o.id
  · rw [if_pos (decide_eq_true h), if_pos h]
    simp
  · rw [if_neg ?_, if_neg h]
    · simp
    · simpa using h

/-- The edit groups are untouched by a bare assistant insert. -/
theorem userGroup_insertAssistant (db : DB) (conv : Nat) (content : String)
    (replyTo : Option Nat) (sources prompt : Option String) (conv' g' : Nat) :
    userGroup (insertAssistant db conv content replyTo sources prompt) conv' g' =
      userGroup db conv' g' := by
  show List.filter _ (db.msgs ++ [_]) = _
  rw [List.filter_append, List.filter_cons, List.filter_nil]
  rw [groupPred_assistantRow conv' g' db.nextId conv content replyTo sources prompt]
  simp only [List.cons_append, List.nil_append, if_false, Bool.false_eq_true,
    List.append_nil]
  rfl

/-- Unpacking a successful original-message lookup. -/
theorem findOriginal_spec {db : DB} {conv egidReq : Nat} {o : Msg}
    (h : findOriginal db conv egidReq = some o) :
    o ∈ db.msgs ∧ o.id = egidReq ∧ o.convId = conv ∧ o.role = Role.user := by
  refine ⟨List.mem_of_find?_eq_some h, ?_⟩
  have := List.find?_some h
  exact of_decide_eq_true this

/-- Every state reachable through the chat endpoints is structurally
well-formed and satisfies the edit-group invariant. -/
theorem reach_inv {db : DB} (h : Reach db) : wfDB db ∧ editGroupInv db := by
  induction h with
  | init =>
    refine ⟨⟨le_refl 1, ?_, List.Pairwise.nil, ?_⟩, ?_⟩
    · intro m hm; cases hm
    · intro m hm; cases hm
    · intro conv g hne; exact absurd rfl hne
  | newTurn conv content parent resp sources hr ih =>
    rename_i db
    obtain ⟨hwf, hinv⟩ := ih
    refine ⟨wfDB_sendNewTurn _ _ _ _ _ _ hwf, ?_⟩
    intro conv' g' hne
    rw [userGroup_sendNewTurn] at hne ⊢
    by_cases hc : conv' = conv ∧ g' = db.nextId
    · have hold : userGroup db conv' g' = [] := by
        by_contra hne'
        have := group_id_lt_nextId hwf hinv hne'
        omega
      rw [hold, if_pos hc, List.nil_append]
      refine ⟨⟨parent, ?_⟩, ?_, ?_⟩
      · intro m hm
        rcases hm with _ | ⟨_, hm⟩
        · rfl
        · cases hm
      · intro m0 hm0
        simp only [List.head?_cons, Option.some.injEq] at hm0
        subst hm0
        exact hc.2.symm
      · simp [mkUserRow, List.range']
    · rw [if_neg hc, List.append_nil] at hne ⊢
      exact hinv conv' g' hne
  | editTurn conv content egidReq resp sources hr heq ih =>
    rename_i db db'
    obtain ⟨hwf, hinv⟩ := ih
    rw [sendEditTurn] at heq
    cases hfo : findOriginal db conv egidReq with
    | none => rw [hfo] at heq; exact Option.noConfusion heq
    | some o =>
      rw [hfo] at heq
      have hdb' : db' = appendEditVersions db conv content o resp sources :=
        (Option.some.inj heq).symm
      subst hdb'
      obtain ⟨homem, hoid, hoconv, horole⟩ := findOriginal_spec hfo
      obtain ⟨g0, hg0⟩ := Option.isSome_iff_exists.mp (hwf.2.2.2 o homem horole)
      have hgetD : o.editGroupId.getD o.id = g0 := by rw [hg0]; rfl
      have homem' : o ∈ userGroup db conv g0 :=
        List.mem_filter.mpr ⟨homem, decide_eq_true ⟨hoconv, horole, hg0⟩⟩
      have hold_ne : userGroup db conv g0 ≠ [] := List.ne_nil_of_mem homem'
      obtain ⟨⟨p, hp⟩, hhead, hmap⟩ := hinv conv g0 hold_ne
      refine ⟨wfDB_appendEdit _ _ _ _ _ _ hwf, ?_⟩
      intro conv' g' hne
      rw [userGroup_appendEdit, hgetD] at hne ⊢
      by_cases hc : conv' = conv ∧ g' = g0
      · rw [if_pos hc] at hne ⊢
        obtain ⟨hc1, hc2⟩ := hc
        subst hc1; subst hc2
        refine ⟨⟨p, ?_⟩, ?_, ?_⟩
        · intro m hm
          rcases List.mem_append.mp hm with hm | hm
          · exact hp m hm
          · rcases hm with _ | ⟨_, hm⟩
            · exact hp o homem'
            · cases hm
        · intro m0 hm0
          rw [List.head?_append_of_ne_nil _ hold_ne] at hm0
          exact hhead m0 hm0
        · rw [List.map_append, hmap, List.length_append]
          simp only [mkUserRow, List.map_cons, List.map_nil, List.length_cons,
            List.length_nil]
          rw [List.range'_concat]
          simp only [one_mul, List.append_cancel_left_eq, List.cons.injEq, and_true]
          omega
      · rw [if_neg hc, List.append_nil] at hne ⊢
        exact hinv conv' g' hne
  | assistantOnly conv content replyTo sources prompt hr ih =>
    obtain ⟨hwf, hinv⟩ := ih
    refine ⟨wfDB_insertAssistant _ _ _ _ _ _ hwf, ?_⟩
    intro conv' g' hne
    rw [userGroup_insertAssistant] at hne ⊢
    exact hinv conv' g' hne

/-- Stable insertion step: `lt y x` holds when `y` strictly precedes `x` in
the sort order; `x` is inserted after every strictly-preceding element and
before ties, which preserves the original order of equal keys (Python's
`list.sort` and SQL `ORDER BY` are modelled by this stable sort). -/
def insertStable {α : Type} (lt : α → α → Bool) (x : α) : List α → List α
  | [] => [x]
  | y :: ys => if lt y x then y :: insertStable lt x ys else x :: y :: ys

/-- Stable sort by the strict precedence `lt` (insertion sort, stable). -/
def sortStable {α : Type} (lt : α → α → Bool) : List α → List α
  | [] => []
  | x :: xs => insertStable lt x (sortStable lt xs)

/-- Inserting is a permutation of consing. -/
theorem insertStable_perm {α : Type} (lt : α → α → Bool) (x : α) (l : List α) :
    (insertStable lt x l).Perm (x :: l) := by
  induction l with
  | nil => exact List.Perm.refl _
  | cons y ys ih =>
    rw [insertStable]
    by_cases h : lt y x = true
    · rw [if_pos h]
      exact (ih.cons y).trans (List.Perm.swap x y ys)
    · rw [if_neg h]

/-- Stable sorting permutes the input. -/
theorem sortStable_perm {α : Type} (lt : α → α → Bool) (l : List α) :
    (sortStable lt l).Perm l := by
  induction l with
  | nil => exact List.Perm.refl _
  | cons x xs ih =>
    rw [sortStable]
    exact (insertStable_perm lt x (sortStable lt xs)).trans (ih.cons x)

/-- Outcome of `PUT /messages/{message_id}` (`routes/messages.py`,
`edit_message`): 404 when the message is missing (nothing persisted), an
HTTP 500 from the regenerate block (the content edit is already committed at
that point), or success. -/
inductive EditOutcome where
  | notFound
  | errored (db : DB)
  | ok (db : DB)
deriving Repr, DecidableEq

/-- The strict precedence of `ORDER BY version_index ASC, created_at ASC`
(`messages.py` line 140): `a` comes strictly before `b`. -/
def respBefore (a b : Msg) : Bool :=
  decide (a.versionIndex < b.versionIndex ∨
    (a.versionIndex = b.versionIndex ∧ a.createdAt < b.createdAt))

/-- The in-place re-parenting of a fallback assistant reply
(`messages.py` lines 158-160): `reply_to_message_id = message.id`,
`version_index = version_index or 1`. -/
def reparentResp (msgId : Nat) (fb : Msg) : Msg :=
  { fb with replyTo := some msgId,
            versionIndex := if fb.versionIndex = 0 then 1 else fb.versionIndex }

/-- The archived snapshot of the previous active reply
(`messages.py` lines 163-177): a new row copying the reply's content with
`is_archived=True` and `reply_to_message_id = message.id`; `is_edited` is not
passed, so it defaults to 0. -/
def mkArchivedCopy (newId msgId : Nat) (a : Msg) : Msg :=
  { id := newId, convId := a.convId, role := a.role, content := a.content,
    replyTo := some msgId, editGroupId := none,
    versionIndex := if a.versionIndex = 0 then 1 else a.versionIndex,
    isArchived := true, isEdited := 0, sourcesJson := a.sourcesJson,
    promptSnapshot := a.promptSnapshot, createdAt := a.createdAt }

/-- `edit_message` (`routes/messages.py` lines 23-244).  The edited message's
content is overwritten in place and committed (lines 47-51).  With
`regenerate=true` on a user message: the replies to this message are loaded
(lines 134-142), the first non-archived one is the active reply, with a
fallback to the next non-archived assistant of the conversation, re-parented
in place (lines 146-161); the active reply's old content is copied into a new
row with `is_archived=True` (lines 163-178); then the active reply itself is
overwritten with the freshly generated response and the next version index
(lines 196-203), or a new assistant row is inserted when there was none
(lines 184-195).  `hasChunks` is the guard of lines 77-78; the LLM call is
abstracted by `genResp`/`genSources`. -/
def editMessage (db : DB) (msgId : Nat) (newContent : String) (regenerate : Bool)
    (hasChunks : Bool) (genResp : String) (genSources : Option String) : EditOutcome :=
  match db.msgs.find? (fun m => decide (m.id = msgId)) with
  | none => .notFound
  | some message =>
    let conv := message.convId
    let db1 : DB :=
      { db with msgs := db.msgs.map (fun m =>
          if m.id = msgId then { m with content := newContent, isEdited := 1 } else m) }
    if regenerate ∧ message.role = Role.user then
      if ¬hasChunks then .errored db1
      else
        let responses := sortStable respBefore (db1.msgs.filter (fun m =>
          decide (m.convId = conv ∧ m.replyTo = some msgId)))
        let active1 := responses.find? (fun r => !r.isArchived)
        let fallback :=
          match active1 with
          | some _ => none
          | none => db1.msgs.find? (fun m =>
              decide (m.convId = conv ∧ msgId < m.id ∧ m.role = Role.assistant) && !m.isArchived)
        let db2 : DB :=
          match fallback with
          | some fb =>
            { db1 with msgs := db1.msgs.map (fun m =>
                if m.id = fb.id then reparentResp msgId fb else m) }
          | none => db1
        let active := active1.or (fallback.map (reparentResp msgId))
        let responses2 := responses ++
          (match fallback with | some fb => [reparentResp msgId fb] | none => [])
        let withCopy : Option (DB × List Msg) :=
          match active with
          | some a =>
            if a.content ≠ "" then
              some ({ msgs := db2.msgs ++ [mkArchivedCopy db2.nextId msgId a],
                      nextId := db2.nextId + 1 },
                    responses2 ++ [mkArchivedCopy db2.nextId msgId a])
            else none
          | none => none
        let db3 := (withCopy.map Prod.fst).getD db2
        let responses3 := (withCopy.map Prod.snd).getD responses2
        let nextVersion := (responses3.map Msg.versionIndex).foldr max 0 + 1
        match active with
        | none =>
          .ok { msgs := db3.msgs ++
                  [{ id := db3.nextId, convId := conv, role := .assistant,
                     content := genResp, replyTo := some msgId, editGroupId := none,
                     versionIndex := nextVersion, isArchived := false, isEdited := 0,
                     sourcesJson := genSources, promptSnapshot := some newContent,
                     createdAt := db3.nextId }],
                nextId := db3.nextId + 1 }
        | some a =>
          .ok { db3 with msgs := db3.msgs.map (fun m =>
                  if m.id = a.id then
                    { m with content := genResp, sourcesJson := genSources,
                             versionIndex := nextVersion, isArchived := false,
                             replyTo := some msgId, promptSnapshot := some newContent }
                  else m) }
    else .ok db1

/-- A raw hit returned by `client.query_points` (`embeddings.py` lines 291-304):
payload fields plus the cosine `score`.  Scores are modelled as rationals
(the Python floats carry real-valued cosine similarities). -/
structure SearchHit where
  content : String
  source : String
  chunkIndex : Nat
  documentId : Option Nat
  score : ℚ
deriving Repr, DecidableEq

/-- One entry of the list built in `QdrantVectorStore.search`
(`embeddings.py` lines 324-334): `score` is the adjusted score,
`raw_score` the original cosine score. -/
structure SearchResult where
  content : String
  source : String
  chunkIndex : Nat
  documentId : Option Nat
  score : ℚ
  rawScore : ℚ
deriving Repr, DecidableEq

/-- The content-length boost of `QdrantVectorStore.search`
(`embeddings.py` lines 307-320): `< 100 → −0.05`, `< 200 → 0`,
`< 400 → +0.03`, otherwise `min(length/10000, 0.08)`. -/
def lengthBoost (len : Nat) : ℚ :=
  if len < 100 then -(5/100 : ℚ)
  else if len < 200 then 0
  else if len < 400 then 3/100
  else min ((len : ℚ) / 10000) (8/100)

/-- Building one adjusted result (`embeddings.py` lines 322-334). -/
def rescoreHit (h : SearchHit) : SearchResult :=
  { content := h.content, source := h.source, chunkIndex := h.chunkIndex,
    documentId := h.documentId,
    score := h.score + lengthBoost h.content.length, rawScore := h.score }

/-- The rescoring tail of `QdrantVectorStore.search` (`embeddings.py` lines
299-339): map every hit to its adjusted result, then
`raw_results.sort(key=lambda x: x["score"], reverse=True)` — a stable
descending sort by adjusted score (modelled by the stable `mergeSort`). -/
def searchRescore (hits : List SearchHit) : List SearchResult :=
  sortStable (fun a b => decide (b.score < a.score)) (hits.map rescoreHit)

/-- `_select_intelligent_chunks` (`utils/hierarchical_processor.py` lines
10-44).  `sample` stands for `random.sample(middle_chunks, k)` reading the
process-global `random` state: the module never calls `random.seed`, so the
draw is a function of that ambient state, threaded here as a parameter.
`int(target_count * 0.1)` is modelled as `targetCount / 10` (exact floor;
the float detour agrees on every realistic target).  Python's negative
`target_count - first - last` arithmetic is kept on `Int`. -/
def selectIntelligentChunks {α : Type} (allChunks : List α) (targetCount : Nat)
    (sample : List α → Nat → List α) : List α :=
  if allChunks.length ≤ targetCount then allChunks
  else
    let firstSectionCount := min (max 1 (targetCount / 10)) (allChunks.length / 3)
    let lastSectionCount := min (max 1 (targetCount / 10)) (allChunks.length / 3)
    let availableMiddle : Int :=
      (allChunks.length : Int) - firstSectionCount - lastSectionCount
    let randomCount : Int :=
      max 0 (min ((targetCount : Int) - firstSectionCount - lastSectionCount) availableMiddle)
    let selected := allChunks.take firstSectionCount ++
      (if 0 < lastSectionCount then allChunks.drop (allChunks.length - lastSectionCount) else [])
    let middleChunks :=
      if 0 < lastSectionCount then
        (allChunks.drop firstSectionCount).take
          (allChunks.length - lastSectionCount - firstSectionCount)
      else allChunks.drop firstSectionCount
    if middleChunks.isEmpty = false ∧ 0 < randomCount then
      selected ++ sample middleChunks (min randomCount.toNat middleChunks.length)
    else selected

/-- The payload stored with each Qdrant point (`embeddings.py` lines 205-237):
the chunk metadata (`source`, `chunk_index`, `chunk_id`, `document_id`,
`conversation_id`, `type`) merged with the chunk `content`, plus the
embedding vector. -/
structure PointPayload where
  source : String
  chunkIndex : Nat
  chunkId : Nat
  documentId : Option Nat
  conversationId : Nat
  ptype : String
  content : String
  vector : List ℚ
deriving Repr, DecidableEq

/-- The Qdrant collection, abstracted as a keyed point set: `data` maps a
point id to its payload, `knownIds` lists the ids ever inserted (so counts
are observable). -/
@[ext] structure VStore where
  data : String → Option PointPayload
  knownIds : List String

/-- The empty collection. -/
def VStore.empty : VStore := { data := fun _ => none, knownIds := [] }

/-- Python's `str(doc_id)` inside the f-string: `None` renders as `"None"`. -/
def docIdStr : Option Nat → String
  | none => "None"
  | some n => toString n

/-- The namespace string of `add_documents` (`embeddings.py` line 228):
`f"{conversation_id}:{source}:{doc_id}:{chunk_idx}:{text[:100]}"`. -/
def namespaceString (convId : Nat) (source : String) (docId : Option Nat)
    (chunkIdx : Nat) (content : String) : String :=
  toString convId ++ ":" ++ source ++ ":" ++ docIdStr docId ++ ":" ++
    toString chunkIdx ++ ":" ++ content.take 100

/-- `str(uuid.uuid5(uuid.NAMESPACE_DNS, namespace_string))`
(`embeddings.py` line 229).  `uuid.uuid5` is Python-stdlib code outside this
repository: it is a fixed deterministic function of its input string (a SHA-1
digest reformatted as a UUID), which is all the store relies on; it is
modelled here as a deterministic injective encoding of that string. -/
def uuid5dns (s : String) : String :=
  String.append "uuid5-dns:" s

/-- The deterministic point id of a chunk (`embeddings.py` lines 228-229):
a pure function of the conversation id, source, document id, chunk index and
the first 100 characters of the content. -/
def pointId (convId : Nat) (source : String) (docId : Option Nat)
    (chunkIdx : Nat) (content : String) : String :=
  uuid5dns (namespaceString convId source docId chunkIdx content)

/-- One chunk row produced by the chunking loop of `add_documents`
(`embeddings.py` lines 201-214). -/
structure ChunkRow where
  source : String
  chunkIndex : Nat
  documentId : Option Nat
  content : String
deriving Repr, DecidableEq

/-- The chunking loop of `add_documents` (`embeddings.py` lines 201-214):
for each `(source, text)` of `text_data` (a dict, iterated in insertion
order), split the text (`split` models the `RecursiveCharacterTextSplitter`,
external langchain code) and enumerate the chunks. -/
def chunkRowsOf (split : String → List String) (textData : List (String × String))
    (documentIds : String → Option Nat) : List ChunkRow :=
  textData.flatMap (fun st =>
    ((split st.2).enum).map (fun ic =>
      { source := st.1, chunkIndex := ic.1, documentId := documentIds st.1,
        content := ic.2 }))

/-- Building one `PointStruct` (`embeddings.py` lines 224-237): the point id
from the five metadata values, the embedding vector (`embed` models
`model.encode`), and the payload. -/
def mkPoint (convId : Nat) (embed : String → List ℚ) (r : ChunkRow) :
    String × PointPayload :=
  (pointId convId r.source r.documentId r.chunkIndex r.content,
   { source := r.source, chunkIndex := r.chunkIndex, chunkId := r.chunkIndex,
     documentId := r.documentId, conversationId := convId, ptype := "document",
     content := r.content, vector := embed r.content })

/-- A single point upsert: overwrite the payload at the id, remembering the
id when it is new. -/
def upsertPoint (s : VStore) (p : String × PointPayload) : VStore :=
  { data := fun x => if x = p.1 then some p.2 else s.data x,
    knownIds := if (s.data p.1).isSome then s.knownIds else s.knownIds ++ [p.1] }

/-- `client.upsert` over the whole point list (`embeddings.py` lines 239-246
batches the same sequence in slices of 100; the sequential fold is
identical). -/
def upsertPoints (s : VStore) (ps : List (String × PointPayload)) : VStore :=
  ps.foldl upsertPoint s

/-- `QdrantVectorStore.add_documents` (`embeddings.py` lines 182-249):
chunk, embed, build points with deterministic ids, upsert; returns the chunk
count together with the updated store. -/
def addDocuments (s : VStore) (convId : Nat) (split : String → List String)
    (embed : String → List ℚ) (textData : List (String × String))
    (documentIds : String → Option Nat) : Nat × VStore :=
  let points := (chunkRowsOf split textData documentIds).map (mkPoint convId embed)
  (points.length, upsertPoints s points)

/-- The number of stored vectors for a conversation/document pair (the
observable count of the idempotence property). -/
def countByConvDoc (s : VStore) (convId : Nat) (docId : Option Nat) : Nat :=
  (s.knownIds.filter (fun i =>
    match s.data i with
    | some pl => decide (pl.conversationId = convId ∧ pl.documentId = docId)
    | none => false)).length

/-- The number of stored vectors for a conversation. -/
def countByConv (s : VStore) (convId : Nat) : Nat :=
  (s.knownIds.filter (fun i =>
    match s.data i with
    | some pl => decide (pl.conversationId = convId)
    | none => false)).length

/-- `QdrantVectorStore.delete_by_conversation` (`embeddings.py` lines
367-384): delete every point whose payload carries this conversation id. -/
def deleteByConversation (s : VStore) (convId : Nat) : VStore :=
  { data := fun i =>
      match s.data i with
      | some pl => if pl.conversationId = convId then none else some pl
      | none => none,
    knownIds := s.knownIds.filter (fun i =>
      match s.data i with
      | some pl => !decide (pl.conversationId = convId)
      | none => false) }

/-- The payload of the LAST occurrence of an id in a point list (later
upserts win). -/
def lastPayload : List (String × PointPayload) → String → Option PointPayload
  | [], _ => none
  | p :: rest, i =>
    match lastPayload rest i with
    | some v => some v
    | none => if p.1 = i then some p.2 else none

/-- Lookup after a bulk upsert: the last occurrence in the list wins,
otherwise the old store answers. -/
theorem data_upsertPoints (ps : List (String × PointPayload)) :
    ∀ (s : VStore) (i : String),
    (upsertPoints s ps).data i =
      (match lastPayload ps i with
       | some v => some v
       | none => s.data i) := by
  induction ps with
  | nil => intro s i; rfl
  | cons p rest ih =>
    intro s i
    show (upsertPoints (upsertPoint s p) rest).data i = _
    rw [ih]
    cases hlast : lastPayload rest i with
    | some v => rw [lastPayload, hlast]
    | none =>
      rw [lastPayload, hlast]
      by_cases hpi : p.1 = i
      · rw [if_pos hpi]
        show (if i = p.1 then some p.2 else s.data i) = some p.2
        rw [if_pos hpi.symm]
      · rw [if_neg hpi]
        show (if i = p.1 then some p.2 else s.data i) = s.data i
        rw [if_neg (fun h => hpi h.symm)]

/-- An id occurring in the point list has a payload afterwards. -/
theorem lastPayload_isSome_of_mem {ps : List (String × PointPayload)}
    {p : String × PointPayload} (hp : p ∈ ps) : (lastPayload ps p.1).isSome := by
  induction ps with
  | nil => cases hp
  | cons q rest ih =>
    rw [lastPayload]
    cases hlast : lastPayload rest p.1 with
    | some v => rfl
    | none =>
      rcases hp with _ | ⟨_, hp⟩
      · rw [if_pos rfl]; rfl
      · have := ih hp
        rw [hlast] at this
        cases this

/-- Upserting points that are all already present does not grow the id list. -/
theorem knownIds_upsertPoints_of_known (ps : List (String × PointPayload)) :
    ∀ (s : VStore), (∀ p ∈ ps, (s.data p.1).isSome) →
    (upsertPoints s ps).knownIds = s.knownIds := by
  induction ps with
  | nil => intro s _; rfl
  | cons p rest ih =>
    intro s hall
    show (upsertPoints (upsertPoint s p) rest).knownIds = s.knownIds
    have h1 : (upsertPoint s p).knownIds = s.knownIds := by
      show (if (s.data p.1).isSome then s.knownIds else s.knownIds ++ [p.1]) = s.knownIds
      rw [if_pos (hall p (List.mem_cons_self p rest))]
    rw [ih (upsertPoint s p) ?_, h1]
    intro q hq
    show (if q.1 = p.1 then some p.2 else s.data q.1).isSome
    by_cases hqp : q.1 = p.1
    · rw [if_pos hqp]; rfl
    · rw [if_neg hqp]
      exact hall q (List.mem_cons_of_mem p hq)

/-- Re-upserting an identical point list is the identity on the store. -/
theorem upsertPoints_idem (s : VStore) (ps : List (String × PointPayload)) :
    upsertPoints (upsertPoints s ps) ps = upsertPoints s ps := by
  apply VStore.ext
  · funext i
    rw [data_upsertPoints]
    cases hlast : lastPayload ps i with
    | some v =>
      rw [data_upsertPoints, hlast]
    | none => rfl
  · apply knownIds_upsertPoints_of_known
    intro p hp
    rw [data_upsertPoints]
    have := lastPayload_isSome_of_mem hp
    cases hlast : lastPayload ps p.1 with
    | some v => rfl
    | none => rw [hlast] at this; cases this

/-- Outcome of the tail of `upload_files` (`routes/upload.py` lines 126-176),
starting after the conversation and document rows are flushed.
`ok`: chunks committed, vectors stored.
`vectorFailed`: `vector_store.add_documents` raised (lines 130-135): the outer
handler rolls the DB back and re-raises HTTP 500 — `delete_by_conversation`
is NOT called on this path, so `vs` keeps the batches already upserted.
`metadataFailed`: the chunk-metadata persist raised (lines 155-165): the DB is
rolled back AND `delete_by_conversation` is invoked.
In the two failure outcomes the relational transaction is rolled back, so no
conversation/document/chunk rows persist. -/
inductive UploadOutcome where
  | ok (vs : VStore)
  | vectorFailed (vs : VStore)
  | metadataFailed (vs : VStore)

/-- The vector phase of an upload with fault injection: `qdrantFailsAfter =
some b` makes the upsert loop of `add_documents` (batches of 100,
`embeddings.py` lines 239-246) raise after `b` full batches were written —
only meaningful when more batches remain, i.e. `b * 100 < points.length`. -/
def uploadFilesTail (vs : VStore) (convId : Nat) (split : String → List String)
    (embed : String → List ℚ) (textData : List (String × String))
    (documentIds : String → Option Nat) (qdrantFailsAfter : Option Nat)
    (metadataPersistFails : Bool) : UploadOutcome :=
  let points := (chunkRowsOf split textData documentIds).map (mkPoint convId embed)
  match qdrantFailsAfter with
  | some b =>
    if b * 100 < points.length then
      .vectorFailed (upsertPoints vs (points.take (b * 100)))
    else
      let vs1 := upsertPoints vs points
      if metadataPersistFails then .metadataFailed (deleteByConversation vs1 convId)
      else .ok vs1
  | none =>
    let vs1 := upsertPoints vs points
    if metadataPersistFails then .metadataFailed (deleteByConversation vs1 convId)
    else .ok vs1

/-- The per-event-loop lock state of `utils/ollama_client.py` (lines 27-73):
for each conversation id, the value of its `asyncio.Semaphore(1)` (`locks`,
`None` when no entry exists) and the `acquired` bookkeeping flag. -/
structure LockState where
  locks : Nat → Option Nat
  acquired : Nat → Option Bool

/-- The initial per-loop state: no entries. -/
def LockState.empty : LockState := { locks := fun _ => none, acquired := fun _ => none }

/-- `_get_conversation_lock` (`ollama_client.py` lines 65-73): create the
per-conversation semaphore (value 1) and the `acquired=False` flag when no
entry exists. -/
def getConversationLock (s : LockState) (cid : Nat) : LockState :=
  if (s.locks cid).isSome then s
  else
    { locks := fun c => if c = cid then some 1 else s.locks c,
      acquired := fun c => if c = cid then some false else s.acquired c }

/-- `acquire_llm_lock` (`ollama_client.py` lines 76-97): ensure the entry,
then `await semaphore.acquire()` — modelled as success exactly when the
semaphore value is positive (a zero value blocks and, after the timeout,
returns `False` with the state otherwise unchanged); on success the value is
decremented and the flag set. -/
def acquire_llm_lock (s : LockState) (cid : Nat) : Bool × LockState :=
  let s1 := getConversationLock s cid
  match s1.locks cid with
  | some (v + 1) =>
    (true,
     { locks := fun c => if c = cid then some v else s1.locks c,
       acquired := fun c => if c = cid then some true else s1.acquired c })
  | _ => (false, s1)

/-- `release_llm_lock` (`ollama_client.py` lines 100-110): under the global
lock, release the semaphore and clear the flag — but only when an entry
exists AND `acquired.get(cid, False)` is true; otherwise do nothing.
(`asyncio.Semaphore.release` never raises, so the `except ValueError` guard
is dead code; the model's release is total.) -/
def release_llm_lock (s : LockState) (cid : Nat) : LockState :=
  if (s.locks cid).isSome ∧ (s.acquired cid).getD false then
    { locks := fun c => if c = cid then (s.locks cid).map (· + 1) else s.locks c,
      acquired := fun c => if c = cid then some false else s.acquired c }
  else s

/-- One SSE frame of `/chat/stream` (`chat.py`, `generate_stream`,
lines 591-741; frame schemas per the `json.dumps` payloads). -/
inductive Frame where
  | meta (sources : List String) (sourceChunks : List (Nat × String × String))
      (userMessageId : Option Nat) (editGroupId : Option Nat)
  | token (content : String)
  | error (message : String)
  | done (assistantMessageId : Nat) (fullResponse : String) (error : Bool)
deriving Repr, DecidableEq

/-- How the generation phase of `generate_stream` ends (`chat.py` lines
628-675): a streamed token sequence that completes; a streamed sequence that
raises after some tokens (lines 652-655, also the `TimeoutError` handler at
673-675 with zero further tokens); a non-streaming response split on spaces
(lines 656-668); or a non-streaming call that raises (lines 669-672). -/
inductive GenOutcome where
  | streamed (tokens : List String)
  | streamedError (tokens : List String) (msg : String)
  | nonstream (response : String)
  | nonstreamError (msg : String)
deriving Repr, DecidableEq

/-- The whitespace token split of the non-streaming fallback (`chat.py`
lines 665-668): `full_response.split(' ')`, re-emitting each word with its
separating space. -/
def spaceSplitTokens (resp : String) : List String :=
  let words := resp.splitOn " "
  (words.enum).map (fun iw => iw.2 ++ (if iw.1 + 1 < words.length then " " else ""))

/-- The lock-timeout error message (`chat.py` line 617). -/
def lockBusyMessage : String :=
  "Another request is in progress. Please wait and try again."

/-- The error reply content persisted after a failed generation (`chat.py`
lines 698-703): the cleaned partial text with the error marker appended, or
the bare marker when nothing was produced. -/
def errorContentOf (partial_ : String) : String :=
  if partial_ ≠ "" then partial_ ++ "\n\n[Error: Response generation failed]"
  else "[Error: Response generation failed]"

/-- The SSE frame sequence of `generate_stream` (`chat.py` lines 591-741).
`clean` models the regex cleanup applied to the accumulated text (lines
684-693, external `re` machinery).  The first frame is always `meta`.  When
the per-conversation lock times out, an error assistant row is persisted and
the generator RETURNS after the `error` frame — no `done` frame follows
(lines 601-618).  Otherwise tokens are forwarded; on failure an `error`
frame is emitted; finally the assistant row is persisted and the terminal
`done` frame reports its id, the full response and, on failure, the error
flag. -/
def generateStream (sources : List String) (sourceChunks : List (Nat × String × String))
    (userMessageId : Option Nat) (editGroupId : Option Nat) (lockAcquired : Bool)
    (out : GenOutcome) (clean : String → String) (assistantMessageId : Nat) :
    List Frame :=
  Frame.meta sources sourceChunks userMessageId editGroupId ::
    (if lockAcquired = false then
      [Frame.error lockBusyMessage]
    else
      match out with
      | .streamed toks =>
        toks.map Frame.token ++
          [Frame.done assistantMessageId (clean (String.join toks)) false]
      | .streamedError toks msg =>
        toks.map Frame.token ++
          [Frame.error msg,
           Frame.done assistantMessageId (errorContentOf (clean (String.join toks))) true]
      | .nonstream resp =>
        (spaceSplitTokens resp).map Frame.token ++
          [Frame.done assistantMessageId (clean resp) false]
      | .nonstreamError msg =>
        [Frame.error msg,
         Frame.done assistantMessageId (errorContentOf (clean "")) true])

/-- C10: `release_llm_lock` is total and idempotent on the lock state — when
the conversation's acquired flag is not set (no entry, or right after a
previous release) it changes neither the semaphore map nor the acquired map
(and, being a total function, never raises); consequently releasing twice
equals releasing once, and `acquire;release;release` ends in exactly the
state of `acquire;release`. -/
theorem release_llm_lock_idem (s : LockState) (cid : Nat) :
    ((s.acquired cid).getD false = false → release_llm_lock s cid = s) ∧
    release_llm_lock (release_llm_lock s cid) cid = release_llm_lock s cid ∧
    release_llm_lock (release_llm_lock (acquire_llm_lock s cid).2 cid) cid
      = release_llm_lock (acquire_llm_lock s cid).2 cid := by
  have hno : ∀ t : LockState, (t.acquired cid).getD false = false →
      release_llm_lock t cid = t := by
    intro t ht
    rw [release_llm_lock, if_neg]
    rintro ⟨_, hacq⟩
    rw [ht] at hacq
    exact Bool.false_ne_true hacq
  have hidem : ∀ t : LockState,
      release_llm_lock (release_llm_lock t cid) cid = release_llm_lock t cid := by
    intro t
    by_cases hc : (t.locks cid).isSome = true ∧ (t.acquired cid).getD false = true
    · apply hno
      rw [release_llm_lock, if_pos hc]
      simp
    · have hrel : release_llm_lock t cid = t := by
        rw [release_llm_lock, if_neg hc]
      rw [hrel, hrel]
  exact ⟨hno s, hidem s, hidem _⟩

/-- Witness for C10: on the empty lock state the acquired flag of
conversation 1 is unset, and releasing is a no-op. -/
theorem release_llm_lock_idem_witness :
    ((LockState.empty.acquired 1).getD false = false) ∧
    release_llm_lock LockState.empty 1 = LockState.empty :=
  ⟨rfl, (release_llm_lock_idem LockState.empty 1).1 rfl⟩

/-- C3: a chat request on a conversation that already has an assistant
message, carrying no `parent_message_id` and being neither an edit nor a
regenerate, fails with `ParentRequired` (HTTP 400) on both endpoints, and
the message table is unchanged — no message is persisted. -/
theorem followUp_without_parent_rejected (db : DB) (conv : Nat) (req : ChatRequest)
    (resp : String) (sources : Option String)
    (hassist : hasAnyAssistant db conv = true)
    (hparent : req.parentMessageId = none)
    (hedit : req.isEdit = false) (hregen : req.regenerate = false) :
    chatStep db conv req resp sources = (some .parentRequired, db) ∧
    chatStreamStep db conv req resp sources = (some .parentRequired, db) := by
  have h1 : chatResolveParent db conv req = .error .parentRequired := by
    rw [chatResolveParent, hparent]
    rw [if_pos]
    refine ⟨by rw [hassist], by rw [hedit]; exact Bool.false_ne_true, by rw [hregen]; exact Bool.false_ne_true⟩
  have h2 : chatStreamResolveParent db conv req = .error .parentRequired := by
    rw [chatStreamResolveParent, if_neg (by rw [hregen]; exact Bool.false_ne_true), hparent]
    rw [if_pos]
    refine ⟨by rw [hassist], by rw [hedit]; exact Bool.false_ne_true⟩
  constructor
  · rw [chatStep, h1]
  · rw [chatStreamStep, h2]

/-- Witness for C3 (spec scenario 3): after one linear turn on
conversation 1, a follow-up without a parent id is rejected and the store is
unchanged. -/
theorem followUp_without_parent_rejected_witness :
    (hasAnyAssistant (sendNewTurn DB.empty 1 "hello" none "hi" none) 1 = true) ∧
    chatStep (sendNewTurn DB.empty 1 "hello" none "hi" none) 1
        { message := "more", regenerate := false, editGroupId := none,
          isEdit := false, parentMessageId := none } "r" none
      = (some .parentRequired, sendNewTurn DB.empty 1 "hello" none "hi" none) :=
  ⟨by decide,
   (followUp_without_parent_rejected (sendNewTurn DB.empty 1 "hello" none "hi" none) 1
      { message := "more", regenerate := false, editGroupId := none,
        isEdit := false, parentMessageId := none } "r" none
      (by decide) rfl rfl rfl).1⟩

set_option maxRecDepth 4000 in
set_option maxHeartbeats 2000000 in
/-- C6: the point id assigned to each chunk is
`uuid5(DNS, "{convId}:{source}:{docId}:{chunkIdx}:{content[:100]}")` — a pure
function of those five values (in particular independent of the embedder) —
and re-running `add_documents` with identical input leaves the store, and
hence every per-conversation/per-document vector count, unchanged. -/
theorem addDocuments_deterministic_idempotent (s : VStore) (convId : Nat)
    (split : String → List String) (embed : String → List ℚ)
    (textData : List (String × String)) (documentIds : String → Option Nat) :
    (((chunkRowsOf split textData documentIds).map (mkPoint convId embed)).map Prod.fst
      = (chunkRowsOf split textData documentIds).map
          (fun r => pointId convId r.source r.documentId r.chunkIndex r.content)) ∧
    ((addDocuments (addDocuments s convId split embed textData documentIds).2
        convId split embed textData documentIds).2
      = (addDocuments s convId split embed textData documentIds).2) ∧
    (∀ docId,
      countByConvDoc (addDocuments (addDocuments s convId split embed textData documentIds).2
          convId split embed textData documentIds).2 convId docId
        = countByConvDoc (addDocuments s convId split embed textData documentIds).2 convId docId) ∧
    ((addDocuments (addDocuments s convId split embed textData documentIds).2
        convId split embed textData documentIds).1
      = (addDocuments s convId split embed textData documentIds).1) := by
  have hadd : ∀ t : VStore,
      addDocuments t convId split embed textData documentIds
        = (((chunkRowsOf split textData documentIds).map (mkPoint convId embed)).length,
           upsertPoints t ((chunkRowsOf split textData documentIds).map (mkPoint convId embed))) :=
    fun t => rfl
  have hidem : (addDocuments (addDocuments s convId split embed textData documentIds).2
      convId split embed textData documentIds).2
      = (addDocuments s convId split embed textData documentIds).2 := by
    simp only [hadd]
    exact upsertPoints_idem s _
  refine ⟨?_, hidem, fun docId => by rw [hidem], ?_⟩
  · rw [List.map_map]
    apply List.map_congr_left
    intro r _
    show (mkPoint convId embed r).1 = _
    rw [mkPoint]
  · rw [hadd ((addDocuments s convId split embed textData documentIds).2), hadd s]

/-- Inserting into a list sorted by non-increasing adjusted score keeps it
sorted. -/
theorem pairwise_insertStable_scoreDesc (r : SearchResult) (l : List SearchResult)
    (h : l.Pairwise (fun a b => b.score ≤ a.score)) :
    (insertStable (fun a b => decide (b.score < a.score)) r l).Pairwise
      (fun a b => b.score ≤ a.score) := by
  induction l with
  | nil => simp [insertStable]
  | cons y ys ih =>
    rw [insertStable]
    obtain ⟨hy, hys⟩ := List.pairwise_cons.mp h
    by_cases hlt : (decide (r.score < y.score)) = true
    · rw [if_pos hlt]
      refine List.pairwise_cons.mpr ⟨?_, ih hys⟩
      intro z hz
      have hz' : z ∈ r :: ys := (insertStable_perm _ r ys).mem_iff.mp hz
      rcases hz' with _ | ⟨_, hz'⟩
      · exact le_of_lt (of_decide_eq_true hlt)
      · exact hy z hz'
    · rw [if_neg hlt]
      have hry : y.score ≤ r.score := by
        have : ¬ r.score < y.score := of_decide_eq_false (Bool.not_eq_true _ ▸ hlt)
        exact le_of_not_lt this
      refine List.pairwise_cons.mpr ⟨?_, h⟩
      intro z hz
      rcases hz with _ | ⟨_, hz⟩
      · exact hry
      · exact le_trans (hy z hz) hry

/-- The stable sort by descending adjusted score yields a non-increasing
score sequence. -/
theorem sorted_sortStable_scoreDesc (l : List SearchResult) :
    (sortStable (fun a b => decide (b.score < a.score)) l).Pairwise
      (fun a b => b.score ≤ a.score) := by
  induction l with
  | nil => exact List.Pairwise.nil
  | cons x xs ih =>
    rw [sortStable]
    exact pairwise_insertStable_scoreDesc x _ ih

/-- An 80-character chunk with raw cosine score 0.80 (scenario 6 input A). -/
def exampleShortHit : SearchHit :=
  { content := String.mk (List.replicate 80 'a'), source := "A",
    chunkIndex := 0, documentId := none, score := 80/100 }

/-- A 500-character chunk with raw cosine score 0.77 (scenario 6 input B). -/
def exampleLongHit : SearchHit :=
  { content := String.mk (List.replicate 500 'b'), source := "B",
    chunkIndex := 1, documentId := none, score := 77/100 }

set_option maxRecDepth 8000 in
/-- C5: every returned result's adjusted score is the raw score plus the
length boost (−0.05 below 100 characters, 0 up to 199, +0.03 up to 399,
`min(len/10000, 0.08)` from 400 on), the result list is sorted by
non-increasing adjusted score, and on the concrete scenario — an 80-character
chunk at raw 0.80 against a 500-character chunk at raw 0.77 — the long chunk
is ranked first (0.82 against 0.75). -/
theorem searchRescore_spec :
    (∀ len : Nat,
      (len < 100 → lengthBoost len = -(5/100 : ℚ)) ∧
      (100 ≤ len → len ≤ 199 → lengthBoost len = 0) ∧
      (200 ≤ len → len ≤ 399 → lengthBoost len = 3/100) ∧
      (400 ≤ len → lengthBoost len = min ((len : ℚ) / 10000) (8/100))) ∧
    (∀ hits : List SearchHit,
      (∀ r ∈ searchRescore hits, r.score = r.rawScore + lengthBoost r.content.length) ∧
      (searchRescore hits).Pairwise (fun a b => b.score ≤ a.score)) ∧
    (searchRescore [exampleShortHit, exampleLongHit]
        = [rescoreHit exampleLongHit, rescoreHit exampleShortHit] ∧
      (rescoreHit exampleLongHit).score = 82/100 ∧
      (rescoreHit exampleShortHit).score = 75/100) := by
  have hlenA : exampleShortHit.content.length = 80 := by decide
  have hlenB : exampleLongHit.content.length = 500 := by decide
  have hsA : (rescoreHit exampleShortHit).score = 75/100 := by
    show exampleShortHit.score + lengthBoost exampleShortHit.content.length = 75/100
    rw [hlenA]
    show (80/100 : ℚ) + lengthBoost 80 = 75/100
    rw [lengthBoost, if_pos (by omega)]
    norm_num
  have hsB : (rescoreHit exampleLongHit).score = 82/100 := by
    show exampleLongHit.score + lengthBoost exampleLongHit.content.length = 82/100
    rw [hlenB]
    show (77/100 : ℚ) + lengthBoost 500 = 82/100
    rw [lengthBoost, if_neg (by omega), if_neg (by omega), if_neg (by omega)]
    norm_num
  have hlt : (decide ((rescoreHit exampleShortHit).score
      < (rescoreHit exampleLongHit).score)) = true := by
    rw [decide_eq_true_eq, hsA, hsB]
    norm_num
  refine ⟨?_, ?_, ?_, hsB, hsA⟩
  rotate_left 2
  · show sortStable _ (List.map rescoreHit [exampleShortHit, exampleLongHit]) = _
    simp only [List.map_cons, List.map_nil, sortStable, insertStable, hlt, if_true]
  · intro len
    refine ⟨?_, ?_, ?_, ?_⟩
    · intro h; rw [lengthBoost, if_pos h]
    · intro h1 h2
      rw [lengthBoost, if_neg (by omega), if_pos (by omega)]
    · intro h1 h2
      rw [lengthBoost, if_neg (by omega), if_neg (by omega), if_pos (by omega)]
    · intro h
      rw [lengthBoost, if_neg (by omega), if_neg (by omega), if_neg (by omega)]
  · intro hits
    constructor
    · intro r hr
      have hperm : (searchRescore hits).Perm (hits.map rescoreHit) :=
        sortStable_perm _ (hits.map rescoreHit)
      have hr' : r ∈ hits.map rescoreHit := hperm.mem_iff.mp hr
      obtain ⟨h, _, rfl⟩ := List.mem_map.mp hr'
      rfl
    · exact sorted_sortStable_scoreDesc (hits.map rescoreHit)

/-- Witness for C5: a 50-character chunk falls in the penalty band and its
boost is −0.05. -/
theorem searchRescore_spec_witness :
    (50 < 100) ∧ lengthBoost 50 = -(5/100 : ℚ) :=
  ⟨by omega, ((searchRescore_spec.1 50).1 (by omega))⟩

/-- The stratified selection as the spec words it (§4.10): `h` head chunks,
`t` tail chunks, and a sample of size `max(0, T − h − t)` drawn from the
middle slice `chunks[h : N−t]`. -/
def stratifiedSelection {α : Type} (allChunks : List α) (targetCount : Nat)
    (sample : List α → Nat → List α) : List α :=
  let N := allChunks.length
  let h := min (max 1 (targetCount / 10)) (N / 3)
  let t := min (max 1 (targetCount / 10)) (N / 3)
  allChunks.take h ++ allChunks.drop (N - t) ++
    sample ((allChunks.drop h).take (N - t - h)) (((targetCount : Int) - h - t).toNat)

/-- A list with positive length is not `isEmpty`. -/
theorem isEmpty_eq_false_of_length_pos {α : Type} (l : List α) (h : 0 < l.length) :
    l.isEmpty = false := by
  cases l with
  | nil => cases h
  | cons x xs => rfl

/-- C8 (amended): for `N > T` and any sampler drawing `n` elements from its
input (`random.sample` returns `min n len` elements), the implemented
selection equals the spec's stratified formula: `h = t = min(max(1, ⌊T/10⌋),
⌊N/3⌋)` head and tail chunks plus a sample of `max(0, T − h − t)` chunks
from `chunks[h : N−t]`.  The sampler is the process-global RNG state: the
module never seeds it, so the selection is a function of `(chunks, T,` RNG
state`)`, not of a per-request seed. -/
theorem selectIntelligentChunks_spec {α : Type} (allChunks : List α)
    (targetCount : Nat) (sample : List α → Nat → List α)
    (hsample : ∀ l n, (sample l n).length = min n l.length)
    (hNT : targetCount < allChunks.length) :
    selectIntelligentChunks allChunks targetCount sample
      = stratifiedSelection allChunks targetCount sample := by
  rw [selectIntelligentChunks, if_neg (by omega), stratifiedSelection]
  dsimp only
  set N := allChunks.length with hN
  set h := min (max 1 (targetCount / 10)) (N / 3) with hh
  have hdiv : 3 * (N / 3) ≤ N := Nat.mul_div_le N 3
  have h3 : h ≤ N / 3 := min_le_right _ _
  have hmin : min ((targetCount : Int) - h - h) ((N : Int) - h - h)
      = (targetCount : Int) - h - h := by
    rw [min_eq_left]
    omega
  by_cases hrc : 0 < (targetCount : Int) - h - h
  · have hmax : max 0 (min ((targetCount : Int) - h - h) ((N : Int) - h - h))
        = (targetCount : Int) - h - h := by
      rw [hmin, max_eq_right (le_of_lt hrc)]
    rw [hmax]
    by_cases ht : 0 < h
    · -- head, tail and a positive middle sample
      have hmidlen : ((allChunks.drop h).take (N - h - h)).length = N - h - h := by
        rw [List.length_take, List.length_drop, ← hN]
        omega
      rw [if_pos ht, if_pos ?_]
      · rw [hmidlen]
        have hsz : min ((targetCount : Int) - h - h).toNat (N - h - h)
            = ((targetCount : Int) - h - h).toNat := by omega
        rw [hsz, if_pos ht, List.append_assoc]
      · refine ⟨?_, hrc⟩
        apply isEmpty_eq_false_of_length_pos
        rw [hmidlen]
        omega
    · -- `h = t = 0` (tiny lists): no tail slice, the middle is everything
      have hh0 : h = 0 := by omega
      have hdropNh : allChunks.drop (N - h) = [] := by
        rw [hh0, Nat.sub_zero, hN]
        exact List.drop_length _
      have htakeh : (allChunks.drop h).take (N - h - h) = allChunks := by
        rw [hh0, List.drop_zero, Nat.sub_zero, Nat.sub_zero]
        exact List.take_of_length_le (le_of_eq hN.symm)
      have hlenh : (allChunks.drop h).length = N := by
        rw [hh0, List.drop_zero, hN]
      rw [if_neg ht, if_neg ht]
      rw [if_pos ?_]
      · have hszB : min ((targetCount : Int) - h - h).toNat (allChunks.drop h).length
            = ((targetCount : Int) - h - h).toNat := by
          rw [hlenh]
          omega
        rw [hszB, hdropNh, htakeh, hh0, List.drop_zero]
      · refine ⟨?_, hrc⟩
        apply isEmpty_eq_false_of_length_pos
        rw [List.length_drop]
        omega
  · -- no middle sample: the spec-side draw is empty
    have hmax : max 0 (min ((targetCount : Int) - h - h) ((N : Int) - h - h)) = 0 := by
      rw [hmin, max_eq_left (by omega)]
    rw [hmax]
    have hzero : (((targetCount : Int) - h - h)).toNat = 0 := by omega
    have hempty : sample ((allChunks.drop h).take (N - h - h)) 0 = [] := by
      have := hsample ((allChunks.drop h).take (N - h - h)) 0
      rw [min_eq_left (Nat.zero_le _)] at this
      exact List.eq_nil_of_length_eq_zero this
    rw [if_neg (by simp), hzero, hempty, List.append_nil]
    by_cases ht : 0 < h
    · rw [if_pos ht]
    · have hh0 : h = 0 := by omega
      have hdropNh : allChunks.drop (N - h) = [] := by
        rw [hh0, Nat.sub_zero, hN]
        exact List.drop_length _
      rw [if_neg ht, hdropNh]

/-- Counterexample for C8 as stated: the claim's "deterministic given
`(N, T, seed)` because the sample is seeded per request" is false on the
code — `_select_intelligent_chunks` draws via `random.sample` from the
process-global RNG and the module never calls `random.seed`, so two runs
with identical `(N, T)` (and no seed anywhere to fix) can select different
chunks, as two ambient RNG states exhibit. -/
theorem selectIntelligentChunks_not_seeded :
    selectIntelligentChunks (List.range 10) 4 (fun l n => l.take n)
      ≠ selectIntelligentChunks (List.range 10) 4 (fun l n => l.reverse.take n) := by
  decide

/-- Witness for C8 (amended): on chunks `0..9` with target 4 and the
take-prefix sampler, the selection is head `[0]`, tail `[9]` and a middle
sample of size `max(0, 4−1−1) = 2`. -/
theorem selectIntelligentChunks_spec_witness :
    (4 < (List.range 10).length) ∧
    selectIntelligentChunks (List.range 10) 4 (fun l n => l.take n) = [0, 9, 1, 2] :=
  ⟨by decide,
   by
    rw [selectIntelligentChunks_spec (List.range 10) 4 (fun l n => l.take n)
      (fun l n => List.length_take n l) (by decide)]
    decide⟩

/-- Counterexample for C7 as stated: when the per-conversation lock times
out, `generate_stream` yields the `meta` frame, persists an error assistant
row, yields an `error` frame and RETURNS (`chat.py` lines 601-618) — the
stream's terminal frame is `error`, not `done`, so "the terminal frame is
always a done frame … including when the per-conversation lock times out"
is false. -/
theorem generateStream_lock_timeout_ends_in_error :
    (generateStream [] [] (some 1) (some 1) false (.streamed ["x"]) id 2).getLast?
      = some (Frame.error lockBusyMessage) := by
  decide

/-- C7 (amended): the first SSE frame is always `meta` with the sources,
source chunks, user-message id and edit-group id; when the lock is acquired,
the frames after `meta` are exactly the token frames, then an optional
`error` frame (present exactly on failure), then the terminal `done` frame
whose error flag marks the failure; when the lock acquisition times out, the
stream is `meta` followed by a terminal `error` frame and no `done` frame is
emitted. -/
theorem generateStream_frames (sources : List String)
    (sourceChunks : List (Nat × String × String)) (umid egid : Option Nat)
    (lockAcquired : Bool) (out : GenOutcome) (clean : String → String) (aid : Nat) :
    ((generateStream sources sourceChunks umid egid lockAcquired out clean aid).head?
      = some (Frame.meta sources sourceChunks umid egid)) ∧
    (lockAcquired = true →
      ∃ (toks : List String) (emsg : Option String) (fullResp : String),
        generateStream sources sourceChunks umid egid lockAcquired out clean aid
          = Frame.meta sources sourceChunks umid egid ::
            (toks.map Frame.token ++ (emsg.map Frame.error).toList ++
              [Frame.done aid fullResp emsg.isSome])) ∧
    (lockAcquired = false →
      generateStream sources sourceChunks umid egid lockAcquired out clean aid
        = [Frame.meta sources sourceChunks umid egid, Frame.error lockBusyMessage]) := by
  refine ⟨?_, ?_, ?_⟩
  · rw [generateStream.eq_def]
    rfl
  · intro hlock
    rw [generateStream.eq_def, hlock]
    simp only [Bool.true_eq_false, if_false]
    cases out with
    | streamed toks =>
      exact ⟨toks, none, clean (String.join toks), by simp⟩
    | streamedError toks msg =>
      exact ⟨toks, some msg, errorContentOf (clean (String.join toks)), by simp⟩
    | nonstream resp =>
      exact ⟨spaceSplitTokens resp, none, clean resp, by simp⟩
    | nonstreamError msg =>
      exact ⟨[], some msg, errorContentOf (clean ""), by simp⟩
  · intro hlock
    rw [generateStream.eq_def, hlock]
    rfl

/-- Witness for C7 (amended): with the lock timed out the stream is exactly
the `meta` frame followed by the busy `error` frame. -/
theorem generateStream_frames_witness :
    generateStream [] [] (some 5) (some 5) false (.streamed ["tok"]) id 9
      = [Frame.meta [] [] (some 5) (some 5), Frame.error lockBusyMessage] :=
  (generateStream_frames [] [] (some 5) (some 5) false (.streamed ["tok"]) id 9).2.2 rfl

/-- After `delete_by_conversation` no vector of that conversation remains. -/
theorem countByConv_deleteByConversation (s : VStore) (convId : Nat) :
    countByConv (deleteByConversation s convId) convId = 0 := by
  rw [countByConv, List.length_eq_zero, List.filter_eq_nil_iff]
  intro i _
  show ¬ (match (deleteByConversation s convId).data i with
    | some pl => decide (pl.conversationId = convId)
    | none => false) = true
  have hdata_eq : (deleteByConversation s convId).data i
      = match s.data i with
        | some pl => if pl.conversationId = convId then none else some pl
        | none => none := rfl
  rw [hdata_eq]
  cases hdata : s.data i with
  | none => simp
  | some pl =>
    by_cases hc : pl.conversationId = convId
    · simp [hc]
    · simp [hc]

set_option maxRecDepth 20000 in
set_option maxHeartbeats 4000000 in
/-- Counterexample for C9 as stated: one upload whose Qdrant upsert fails
after the first batch of 100 points (101 chunks total).  The endpoint's
`except` for `add_documents` (`upload.py` lines 130-135) only rolls the DB
back and re-raises HTTP 500 — `delete_by_conversation` is NOT invoked on
this path, and the 100 already-upserted vectors remain for the conversation:
an error upload CAN leave orphan vectors, contradicting the claim. -/
theorem upload_vector_failure_leaves_orphans :
    (match uploadFilesTail VStore.empty 7 (fun _ => (List.range 101).map toString)
        (fun _ => []) [("f", "x")] (fun _ => some 1) (some 1) false with
      | .vectorFailed vs => some ((vs.data (pointId 7 "f" (some 1) 0 "0")).isSome)
      | _ => none) = some true := by
  decide

/-- C9 (amended): when the chunk-metadata persist fails after a successful
vector upsert, the DB transaction is rolled back AND
`delete_by_conversation` removes every vector of the conversation (count 0);
but when the vector upsert itself fails partway, only the DB rollback
happens — the cleanup is not invoked and the batches already written remain
in the store. -/
theorem uploadFilesTail_spec (vs : VStore) (convId : Nat)
    (split : String → List String) (embed : String → List ℚ)
    (textData : List (String × String)) (documentIds : String → Option Nat) :
    (uploadFilesTail vs convId split embed textData documentIds none true
      = .metadataFailed (deleteByConversation
          (upsertPoints vs ((chunkRowsOf split textData documentIds).map (mkPoint convId embed)))
          convId)) ∧
    (countByConv (deleteByConversation
        (upsertPoints vs ((chunkRowsOf split textData documentIds).map (mkPoint convId embed)))
        convId) convId = 0) ∧
    (∀ b : Nat,
      b * 100 < ((chunkRowsOf split textData documentIds).map (mkPoint convId embed)).length →
      ∀ metadataFails : Bool,
      uploadFilesTail vs convId split embed textData documentIds (some b) metadataFails
        = .vectorFailed (upsertPoints vs
            (((chunkRowsOf split textData documentIds).map (mkPoint convId embed)).take (b * 100)))) := by
  refine ⟨?_, countByConv_deleteByConversation _ _, ?_⟩
  · rw [uploadFilesTail]
    rw [if_pos rfl]
  · intro b hb metadataFails
    rw [uploadFilesTail]
    rw [if_pos hb]

/-- Witness for C9 (amended): the one-batch fault injection on a two-chunk
upload triggers the vector-failure path with both points short of the batch
boundary — here `b = 0`, so nothing was written and the store stays empty. -/
theorem uploadFilesTail_spec_witness :
    (0 * 100 < (((chunkRowsOf (fun _ => ["c0", "c1"]) [("f", "x")] (fun _ => some 1))).map
        (mkPoint 7 (fun _ => []))).length) ∧
    uploadFilesTail VStore.empty 7 (fun _ => ["c0", "c1"]) (fun _ => [])
        [("f", "x")] (fun _ => some 1) (some 0) false
      = .vectorFailed (upsertPoints VStore.empty
          ((((chunkRowsOf (fun _ => ["c0", "c1"]) [("f", "x")] (fun _ => some 1))).map
            (mkPoint 7 (fun _ => []))).take 0)) :=
  ⟨by decide,
   (uploadFilesTail_spec VStore.empty 7 (fun _ => ["c0", "c1"]) (fun _ => [])
      [("f", "x")] (fun _ => some 1)).2.2 0 (by decide) false⟩

/-- Counterexample for C4 as stated: the cap is tested only AFTER the append
(`chat.py` line 77), so with `max_messages = 0` the walk still collects one
message — "collects at most maxMsgs messages" fails at `maxMsgs = 0`. -/
theorem buildBranchChatHistory_cap_overshoot :
    (buildBranchChatHistory [mkUserRow 1 1 "hello" none (some 1) 1 0] 1 (some 1) 0).length
      = 1 := by
  have hw : branchWalk [mkUserRow 1 1 "hello" none (some 1) 1 0] 1 (some 1) [] [] 0
      = [mkUserRow 1 1 "hello" none (some 1) 1 0] := by
    rw [branchWalk_step [mkUserRow 1 1 "hello" none (some 1) 1 0] 1 1 [] [] 0
      (by decide) (m := mkUserRow 1 1 "hello" none (some 1) 1 0) (by decide) (by decide)]
    rw [if_pos (by decide)]
    rfl
  show ((branchWalk [mkUserRow 1 1 "hello" none (some 1) 1 0] 1 (some 1) [] [] 0).reverse.map
    (fun m => (m.role, m.content))).length = 1
  rw [hw]
  rfl

/-- C4 (amended): `_build_branch_chat_history` walks `reply_to_message_id`
backward from the tail under a visited-set cycle guard (the walk is a total
function, so it terminates on every input, cyclic links included), returns
the walk reversed to chronological order as (role, content) pairs, and
collects at most `max(1, maxMsgs)` messages (the cap is checked after the
append, so a cap of zero still admits one message; for `maxMsgs ≥ 1` the
bound is `maxMsgs`).  Under the precondition that every reply pointer
references a strictly older message, the walked messages are stored rows
forming the ancestor chain of the tail — so no sibling branch contributes —
with ids at most the tail id, strictly increasing in the reversed
(chronological) order. -/
theorem buildBranchChatHistory_spec (msgs : List Msg) (conv t maxMsgs : Nat)
    (hre : ∀ m ∈ msgs, ∀ r, m.replyTo = some r → r < m.id) :
    ((buildBranchChatHistory msgs conv (some t) maxMsgs).length ≤ max 1 maxMsgs) ∧
    (buildBranchChatHistory msgs conv (some t) maxMsgs
      = ((branchWalk msgs conv (some t) [] [] maxMsgs).reverse).map
          (fun m => (m.role, m.content))) ∧
    (∀ m ∈ branchWalk msgs conv (some t) [] [] maxMsgs, m ∈ msgs ∧ m.id ≤ t) ∧
    ((branchWalk msgs conv (some t) [] [] maxMsgs).reverse).Pairwise
      (fun a b => a.id < b.id) ∧
    ((branchWalk msgs conv (some t) [] [] maxMsgs).reverse).Chain'
      (fun a b => b.replyTo = some a.id) := by
  have hinv := branchWalk_invariant msgs conv t hre (some t) [] [] maxMsgs
    (by intro x hx; cases hx)
    List.chain'_nil
    List.Pairwise.nil
    (by
      intro c hc
      cases hc
      constructor
      · intro x hx
        cases hx
      · exact le_refl t)
    (by intro x hx; cases hx)
    (by
      intro c hc lst hlst
      cases hlst)
  obtain ⟨hmem, hchain, hpair, hbound⟩ := hinv
  refine ⟨?_, rfl, fun m hm => ⟨hmem m hm, hbound m hm⟩, ?_, ?_⟩
  · show ((branchWalk msgs conv (some t) [] [] maxMsgs).reverse.map
      (fun m => (m.role, m.content))).length ≤ max 1 maxMsgs
    rw [List.length_map, List.length_reverse]
    have := branchWalk_length_le msgs conv (some t) [] [] maxMsgs
    simpa using this
  · rw [List.pairwise_reverse]
    exact hpair
  · rw [List.chain'_reverse]
    exact hchain

/-- Witness for C4 (amended): a two-message branch (user 1 ← assistant 2)
with cap 10 reproduces chronological `(role, content)` pairs. -/
theorem buildBranchChatHistory_spec_witness :
    ((∀ m ∈ [mkUserRow 1 1 "hello" none (some 1) 1 0,
        mkAssistantRow 2 1 "hi" (some 1) none (some "hello")],
      ∀ r, m.replyTo = some r → r < m.id) ∧
     buildBranchChatHistory [mkUserRow 1 1 "hello" none (some 1) 1 0,
        mkAssistantRow 2 1 "hi" (some 1) none (some "hello")] 1 (some 2) 10
      = [(Role.user, "hello"), (Role.assistant, "hi")]) :=
  ⟨by decide,
   by
    rw [(buildBranchChatHistory_spec [mkUserRow 1 1 "hello" none (some 1) 1 0,
      mkAssistantRow 2 1 "hi" (some 1) none (some "hello")] 1 2 10 (by decide)).2.1]
    have hw2 : branchWalk [mkUserRow 1 1 "hello" none (some 1) 1 0,
        mkAssistantRow 2 1 "hi" (some 1) none (some "hello")] 1 (some 2) [] [] 10
        = [mkAssistantRow 2 1 "hi" (some 1) none (some "hello"),
           mkUserRow 1 1 "hello" none (some 1) 1 0] := by
      rw [branchWalk_step _ 1 2 [] [] 10 (by decide)
        (m := mkAssistantRow 2 1 "hi" (some 1) none (some "hello")) (by decide) (by decide)]
      rw [if_neg (by decide)]
      show branchWalk _ 1 (some 1) [2] [mkAssistantRow 2 1 "hi" (some 1) none (some "hello")] 10 = _
      rw [branchWalk_step _ 1 1 [2] _ 10 (by decide)
        (m := mkUserRow 1 1 "hello" none (some 1) 1 0) (by decide) (by decide)]
      rw [if_neg (by decide)]
      show branchWalk _ 1 none [1, 2] _ 10 = _
      rw [branchWalk_none]
      rfl
    rw [hw2]
    rfl⟩

/-- C1: in every state reachable through the chat endpoints, each nonempty
edit group (the user messages of a conversation sharing an
`edit_group_id`) has all members sharing one `reply_to_message_id`, its
first version's `edit_group_id` equal to that first version's own id (with
`version_index` 1), and version indices forming exactly `1, …, k`; moreover
each new edit persists a user message whose `version_index` is the count of
the group's existing user messages plus one (and the original's parent as
its parent). -/
theorem editGroup_invariant (db : DB) (hr : Reach db) :
    (∀ conv g, userGroup db conv g ≠ [] →
      (∃ p, ∀ m ∈ userGroup db conv g, m.replyTo = p) ∧
      (∀ m0, (userGroup db conv g).head? = some m0 → m0.id = g ∧ m0.versionIndex = 1) ∧
      (userGroup db conv g).map Msg.versionIndex
        = List.range' 1 (userGroup db conv g).length) ∧
    (∀ conv content egidReq resp sources db',
      sendEditTurn db conv content egidReq resp sources = some db' →
      ∃ o, findOriginal db conv egidReq = some o ∧
        db'.msgs = db.msgs ++
          [mkUserRow db.nextId conv content o.replyTo (some (o.editGroupId.getD o.id))
            ((userGroup db conv (o.editGroupId.getD o.id)).length + 1)
            (if (userGroup db conv (o.editGroupId.getD o.id)).length + 1 > 1 then 1 else 0),
           mkAssistantRow (db.nextId + 1) conv resp (some db.nextId) sources (some content)]) := by
  obtain ⟨hwf, hinv⟩ := reach_inv hr
  constructor
  · intro conv g hne
    obtain ⟨⟨p, hp⟩, hhead, hmap⟩ := hinv conv g hne
    refine ⟨⟨p, hp⟩, ?_, hmap⟩
    intro m0 hm0
    refine ⟨hhead m0 hm0, ?_⟩
    have hmaphead : ((userGroup db conv g).map Msg.versionIndex).head?
        = some m0.versionIndex := by
      rw [List.head?_map, hm0]
      rfl
    rw [hmap] at hmaphead
    cases hlen : (userGroup db conv g).length with
    | zero => exact absurd (List.eq_nil_of_length_eq_zero hlen) hne
    | succ k =>
      rw [hlen, List.range'_succ, List.head?_cons] at hmaphead
      exact (Option.some.inj hmaphead).symm
  · intro conv content egidReq resp sources db' heq
    rw [sendEditTurn] at heq
    cases hfo : findOriginal db conv egidReq with
    | none => rw [hfo] at heq; exact Option.noConfusion heq
    | some o =>
      rw [hfo] at heq
      refine ⟨o, rfl, ?_⟩
      rw [← Option.some.inj heq]
      rfl

/-- A conversation after one linear turn (`"q1"` answered by `"a1"`). -/
def exampleTurnDb : DB := sendNewTurn DB.empty 1 "q1" none "a1" none

/-- The same conversation after editing the first user message to `"q1b"`
through the stream edit path. -/
def exampleEditedDb : DB :=
  (sendEditTurn exampleTurnDb 1 "q1b" 1 "a1b" none).getD DB.empty

/-- The edited two-turn conversation is reachable through the endpoints. -/
theorem exampleEditedDb_reach : Reach exampleEditedDb :=
  Reach.editTurn 1 "q1b" 1 "a1b" none
    (Reach.newTurn 1 "q1" none "a1" none Reach.init) (by decide)

/-- Witness for C1: in the concrete edited conversation, edit group 1 of
conversation 1 is nonempty and its version indices are exactly `1, 2`. -/
theorem editGroup_invariant_witness :
    (userGroup exampleEditedDb 1 1 ≠ []) ∧
    (userGroup exampleEditedDb 1 1).map Msg.versionIndex
      = List.range' 1 (userGroup exampleEditedDb 1 1).length :=
  ⟨by decide,
   ((editGroup_invariant exampleEditedDb exampleEditedDb_reach).1 1 1 (by decide)).2.2⟩

/-- Counterexample for C2 as stated: on a conversation holding user 1
("hello") answered by assistant 2 ("world"), `PUT /messages/1` with
`regenerate=true` (the claim's "edit-with-regenerate") overwrites the user
message's content IN PLACE ("hi there"), REPLACES the original assistant
reply's content with the regenerated text (bumping its version index), and
keeps the old reply only in a newly inserted row with `is_archived=True` —
so "the original user message and its original assistant reply still exist
with their content unchanged" is false on the code. -/
theorem editMessage_rewrites_in_place :
    (match editMessage (sendNewTurn DB.empty 1 "hello" none "world" none) 1
        "hi there" true true "regenerated" none with
      | .ok db' => some ((findMsg db'.msgs 1).map Msg.content,
          (findMsg db'.msgs 2).map (fun m => (m.content, m.isArchived, m.versionIndex)),
          (findMsg db'.msgs 3).map (fun m => (m.content, m.isArchived)))
      | _ => none)
      = some (some "hi there", some ("regenerated", false, 2), some ("world", true)) := by
  rfl

/-- C2 (amended): edits through the chat endpoints' `is_edit` flow never
archive or modify any pre-existing message — they only append the new user
version and its assistant reply, both with `is_archived=False`, so every
earlier row (including the original user message and its reply, contents
and flags intact) persists and all prior branches remain navigable.  The
`PUT /messages/{id}` editor instead rewrites the edited user message and
the active assistant reply in place, preserving the old reply text only in
a freshly inserted archived copy; even there, no PRE-EXISTING row has
`is_archived` set to true (shown on the concrete two-row conversation). -/
theorem editTurn_frame (db : DB) :
    (∀ conv content egidReq resp sources db',
      sendEditTurn db conv content egidReq resp sources = some db' →
      (db'.msgs.take db.msgs.length = db.msgs) ∧
      (∀ m ∈ db.msgs, m ∈ db'.msgs) ∧
      (∀ m ∈ db'.msgs, m ∉ db.msgs → m.isArchived = false)) ∧
    ((match editMessage (sendNewTurn DB.empty 1 "hello" none "world" none) 1
        "hi there" true true "regenerated" none with
      | .ok db' => some ((findMsg db'.msgs 1).map Msg.isArchived,
          (findMsg db'.msgs 2).map Msg.isArchived, db'.msgs.length)
      | _ => none)
      = some (some false, some false, 3)) := by
  constructor
  · intro conv content egidReq resp sources db' heq
    rw [sendEditTurn] at heq
    cases hfo : findOriginal db conv egidReq with
    | none => rw [hfo] at heq; exact Option.noConfusion heq
    | some o =>
      rw [hfo] at heq
      have hmsgs : db'.msgs = db.msgs ++
          [mkUserRow db.nextId conv content o.replyTo (some (o.editGroupId.getD o.id))
            ((userGroup db conv (o.editGroupId.getD o.id)).length + 1)
            (if (userGroup db conv (o.editGroupId.getD o.id)).length + 1 > 1 then 1 else 0),
           mkAssistantRow (db.nextId + 1) conv resp (some db.nextId) sources (some content)] := by
        rw [← Option.some.inj heq]
        rfl
      rw [hmsgs]
      refine ⟨List.take_left _ _, ?_, ?_⟩
      · intro m hm
        exact List.mem_append_left _ hm
      · intro m hm hnot
        rcases List.mem_append.mp hm with hm | hm
        · exact absurd hm hnot
        · rcases hm with _ | ⟨_, hm⟩
          · rfl
          · rcases hm with _ | ⟨_, hm⟩
            · rfl
            · cases hm
  · decide

/-- Witness for C2 (amended): the concrete stream edit of `"q1"` to `"q1b"`
keeps both original rows as an exact prefix of the edited store. -/
theorem editTurn_frame_witness :
    (sendEditTurn exampleTurnDb 1 "q1b" 1 "a1b" none = some exampleEditedDb) ∧
    exampleEditedDb.msgs.take exampleTurnDb.msgs.length = exampleTurnDb.msgs :=
  ⟨by decide,
   ((editTurn_frame exampleTurnDb).1 1 "q1b" 1 "a1b" none exampleEditedDb (by decide)).1⟩

end DocTalk
